import Mathlib

/-
Verification of the content-catalog build step of the repository
(`scripts/load-content.cjs`).

The script is embedded shallowly:

* Machine integers are `Nat` with explicit reduction modulo `2 ^ 32`
  (`w32`) where the JavaScript code relies on 32-bit overflow (MD5).
* The MD5 digest (`crypto.createHash('md5') ... digest('hex')`) is
  implemented from RFC 1321, operating on the file's bytes
  (`List Nat`) and producing the lowercase hexadecimal character
  sequence, exactly as Node's `digest('hex')` does.
* A filesystem state is a finite association list from absolute paths to
  file data, plus the set of explicitly created directories.  Paths are
  lists of name segments (a real filesystem name never contains `/`,
  so a segment list and the `/`-joined string determine each other);
  `path.join`/`path.posix.join` become list append, `path.dirname`
  becomes `List.dropLast`, and `path.extname`/`path.basename` act on
  the final segment, mirroring the Node functions, which only ever
  inspect the part after the last separator.  The embedding assumes a
  POSIX host (`path.sep = '/'`), so the scanner's
  `e.split(path.sep).join('/')` is the identity.
* A file that exists but cannot be read (permission error) is modelled
  by `FileData.unreadable`; `fs.readFileSync` throwing is modelled by
  `FS.readFile` returning `none`, and the exception propagating out of
  `processFiles`/`main` is modelled by the `Option`-valued catalog
  result, with the partially written filesystem state returned as-is.
* `fast-glob` (`fg.sync('**/*', { cwd, onlyFiles: true, dot })`)
  enumerates the regular files strictly below `cwd`; with `dot` unset
  it skips every entry with a path component starting with `.`.
  fast-glob treats `ENOENT` as a non-fatal, always-suppressed error
  (its error filter suppresses `ENOENT` regardless of the
  `suppressErrors` setting), so a missing `cwd` yields the empty list
  rather than an exception; the model reflects that by simply finding
  no entries below a missing root.
-/

/-! ## 32-bit arithmetic and MD5 (crypto.createHash('md5')) -/

/-- Reduce modulo `2 ^ 32`; every MD5 word is kept below `2 ^ 32`. -/
def w32 (n : Nat) : Nat := n % 4294967296

/-- Rotate a 32-bit word left by `n` bits. -/
def rotl32 (x n : Nat) : Nat := w32 (x * 2 ^ n) + x / 2 ^ (32 - n)

/-- Bitwise complement on 32 bits. -/
def not32 (x : Nat) : Nat := Nat.xor x 4294967295

/-- MD5 auxiliary function F (rounds 0-15). -/
def md5F (b c d : Nat) : Nat := Nat.lor (Nat.land b c) (Nat.land (not32 b) d)

/-- MD5 auxiliary function G (rounds 16-31). -/
def md5G (b c d : Nat) : Nat := Nat.lor (Nat.land b d) (Nat.land c (not32 d))

/-- MD5 auxiliary function H (rounds 32-47). -/
def md5H (b c d : Nat) : Nat := Nat.xor b (Nat.xor c d)

/-- MD5 auxiliary function I (rounds 48-63). -/
def md5I (b c d : Nat) : Nat := Nat.xor c (Nat.lor b (not32 d))

/-- The 64 MD5 sine-derived constants of RFC 1321. -/
def md5K : List Nat :=
  [3614090360, 3905402710, 606105819, 3250441966,
   4118548399, 1200080426, 2821735955, 4249261313,
   1770035416, 2336552879, 4294925233, 2304563134,
   1804603682, 4254626195, 2792965006, 1236535329,
   4129170786, 3225465664, 643717713, 3921069994,
   3593408605, 38016083, 3634488961, 3889429448,
   568446438, 3275163606, 4107603335, 1163531501,
   2850285829, 4243563512, 1735328473, 2368359562,
   4294588738, 2272392833, 1839030562, 4259657740,
   2763975236, 1272893353, 4139469664, 3200236656,
   681279174, 3936430074, 3572445317, 76029189,
   3654602809, 3873151461, 530742520, 3299628645,
   4096336452, 1126891415, 2878612391, 4237533241,
   1700485571, 2399980690, 4293915773, 2240044497,
   1873313359, 4264355552, 2734768916, 1309151649,
   4149444226, 3174756917, 718787259, 3951481745]

/-- The 64 MD5 per-round left-rotation amounts. -/
def md5S : List Nat :=
  [7, 12, 17, 22, 7, 12, 17, 22, 7, 12, 17, 22, 7, 12, 17, 22,
   5, 9, 14, 20, 5, 9, 14, 20, 5, 9, 14, 20, 5, 9, 14, 20,
   4, 11, 16, 23, 4, 11, 16, 23, 4, 11, 16, 23, 4, 11, 16, 23,
   6, 10, 15, 21, 6, 10, 15, 21, 6, 10, 15, 21, 6, 10, 15, 21]

/-- One MD5 round on state `(a, b, c, d)`; `m` is the 16-word block. -/
def md5Round (m : List Nat) (st : Nat × Nat × Nat × Nat) (i : Nat) :
    Nat × Nat × Nat × Nat :=
  let a := st.1
  let b := st.2.1
  let c := st.2.2.1
  let d := st.2.2.2
  let f :=
    if i < 16 then md5F b c d
    else if i < 32 then md5G b c d
    else if i < 48 then md5H b c d
    else md5I b c d
  let g :=
    if i < 16 then i
    else if i < 32 then (5 * i + 1) % 16
    else if i < 48 then (3 * i + 5) % 16
    else (7 * i) % 16
  let tmp := w32 (a + f + md5K.getD i 0 + m.getD g 0)
  (d, w32 (b + rotl32 tmp (md5S.getD i 0)), b, c)

/-- Decode a byte list into little-endian 32-bit words. -/
def bytesToWordsLE : List Nat → List Nat
  | b0 :: b1 :: b2 :: b3 :: rest =>
      (b0 + 256 * b1 + 65536 * b2 + 16777216 * b3) :: bytesToWordsLE rest
  | _ => []

/-- Process one 64-byte block. -/
def md5Block (st : Nat × Nat × Nat × Nat) (block : List Nat) :
    Nat × Nat × Nat × Nat :=
  let m := bytesToWordsLE block
  let r := (List.range 64).foldl (md5Round m) st
  (w32 (st.1 + r.1), w32 (st.2.1 + r.2.1), w32 (st.2.2.1 + r.2.2.1),
   w32 (st.2.2.2 + r.2.2.2))

/-- Split into 64-byte chunks, `n` chunks in total. -/
def chunksAux : Nat → List Nat → List (List Nat)
  | 0, _ => []
  | n + 1, l => l.take 64 :: chunksAux n (l.drop 64)

/-- Split a padded message (whose length is a multiple of 64) into its
64-byte blocks. -/
def chunks64 (l : List Nat) : List (List Nat) := chunksAux (l.length / 64) l

/-- Little-endian bytes of the 64-bit bit-length field. -/
def le8 (n : Nat) : List Nat :=
  [n % 256, n / 256 % 256, n / 65536 % 256, n / 16777216 % 256,
   n / 4294967296 % 256, n / 1099511627776 % 256,
   n / 281474976710656 % 256, n / 72057594037927936 % 256]

/-- Little-endian bytes of a 32-bit word. -/
def le4 (n : Nat) : List Nat :=
  [n % 256, n / 256 % 256, n / 65536 % 256, n / 16777216 % 256]

/-- MD5 padding: a `0x80` byte, zeros up to 56 mod 64, then the
little-endian 64-bit message bit length. -/
def md5Pad (msg : List Nat) : List Nat :=
  msg ++ 128 :: List.replicate ((119 - msg.length % 64) % 64) 0 ++
    le8 (8 * msg.length)

/-- The 16 MD5 digest bytes of a byte message. -/
def md5Bytes (msg : List Nat) : List Nat :=
  let st := (chunks64 (md5Pad msg)).foldl md5Block
    (1732584193, 4023233417, 2562383102, 271733878)
  le4 st.1 ++ le4 st.2.1 ++ le4 st.2.2.1 ++ le4 st.2.2.2

/-- Lowercase hexadecimal digit. -/
def hexDigit (n : Nat) : Char := "0123456789abcdef".data.getD n '0'

/-- Two hex characters of one byte. -/
def byteHexChars (b : Nat) : List Char := [hexDigit (b / 16 % 16), hexDigit (b % 16)]

/-- The 32 hex characters of `digest('hex')`. -/
def md5HexChars (msg : List Nat) : List Char :=
  (md5Bytes msg).flatMap byteHexChars

/-! ## Node path operations (posix), acting on a final path segment -/

/-- Split a character list at its last dot: `lastDotSplit cs = some (n, e)`
means `cs = n ++ '.' :: e` with no dot in `e`; `none` means `cs` has no
dot. -/
def lastDotSplit : List Char → Option (List Char × List Char)
  | [] => none
  | c :: rest =>
    match lastDotSplit rest with
    | some (n, e) => some (c :: n, e)
    | none => if c = '.' then some ([], rest) else none

/-- Node `path.extname`, applied to a final path segment: the part of the
name from its last dot, except that a dot in first position (hidden
files such as `.bashrc`) and the names `.` and `..` yield the empty
extension. -/
def extname (s : String) : String :=
  if s.data = ['.', '.'] then "" else
  match lastDotSplit s.data with
  | none => ""
  | some (n, e) => if n = [] then "" else String.mk ('.' :: e)

/-- Node `path.basename(name, ext)`, applied to a final path segment: the
suffix `ext` is stripped when it is nonempty and a suffix of `name`,
unless stripping it would leave nothing. -/
def basename (s ext : String) : String :=
  if ext.data ≠ [] ∧ ext.data ≠ s.data ∧ ext.data <:+ s.data then
    String.mk (s.data.take (s.data.length - ext.data.length))
  else s

/-! ## Filesystem model -/

/-- Contents of one file: readable bytes, or present but unreadable
(permission error on `readFileSync`). -/
inductive FileData where
  | readable (bytes : List Nat)
  | unreadable
  deriving DecidableEq

/-- A filesystem snapshot: an association list from absolute paths
(segment lists, repo-root relative, the script's working directory) to
file data, plus the explicitly created directories.  A directory also
exists implicitly as the proper ancestor of a file. -/
structure FS where
  files : List (List String × FileData)
  dirs : List (List String)
  deriving DecidableEq

/-- Well-formed snapshot: one entry per path. -/
def FS.WF (fs : FS) : Prop := (fs.files.map Prod.fst).Nodup

/-- Update-or-append for association lists; an existing binding keeps its
position (as a JavaScript object key assignment does), a new one goes to
the end. -/
def upsert {α β : Type} [DecidableEq α] (l : List (α × β)) (k : α) (v : β) :
    List (α × β) :=
  if l.any (fun e => decide (e.1 = k)) then
    l.map (fun e => if e.1 = k then (k, v) else e)
  else l ++ [(k, v)]

/-- First binding of a key in an association list, if any. -/
def lookupA {α β : Type} [DecidableEq α] (l : List (α × β)) (k : α) : Option β :=
  (l.find? (fun e => decide (e.1 = k))).map (fun e => e.2)

/-- First binding of a path, if any. -/
def FS.lookupFile (fs : FS) (p : List String) : Option FileData :=
  lookupA fs.files p

/-- Model of `fs.readFileSync`: `none` when the file is missing or
unreadable (the script lets the thrown error propagate). -/
def FS.readFile (fs : FS) (p : List String) : Option (List Nat) :=
  match fs.lookupFile p with
  | some (FileData.readable b) => some b
  | _ => none

/-- Write file bytes at a path (used for `fs.copySync` and the catalog
write). -/
def FS.setFile (fs : FS) (p : List String) (d : FileData) : FS :=
  { fs with files := upsert fs.files p d }

/-- Model of `fs.removeSync` on a directory: drop every file and explicit
directory at or below the path. -/
def FS.removeTree (fs : FS) (p : List String) : FS :=
  { files := fs.files.filter (fun e => !(p.isPrefixOf e.1)),
    dirs := fs.dirs.filter (fun d => !(p.isPrefixOf d)) }

/-- Model of `fs.ensureDirSync`: record the directory as existing. -/
def FS.ensureDir (fs : FS) (p : List String) : FS :=
  { fs with dirs := if p ∈ fs.dirs then fs.dirs else fs.dirs ++ [p] }

/-- A directory exists if it is an ancestor-or-self of an explicitly
created directory or a proper ancestor of a file. -/
def FS.dirExists (fs : FS) (d : List String) : Bool :=
  fs.dirs.any (fun d2 => d.isPrefixOf d2) ||
    fs.files.any (fun e => d.isPrefixOf e.1 && d != e.1)

/-! ## The script's configuration constants -/

/-- Hash prefix length (`NUM_HEX_CHARS = 16`). -/
def NUM_HEX_CHARS : Nat := 16

/-- The content root `<repo-root>/content`, repo-root relative. -/
def CONTENT_DIR : List String := ["content"]

/-- The output root `<repo-root>/public/content`. -/
def PUBLIC_CONTENT_DIR : List String := ["public", "content"]

/-- The catalog artifact `<repo-root>/src/assets/content-catalog.json`. -/
def CATALOG_FILE : List String := ["src", "assets", "content-catalog.json"]

/-! ## The pipeline (load-content.cjs) -/

/-- Whether a path component names a hidden entry, i.e. begins with a
dot (the glob rule applied by fast-glob when `dot` is unset). -/
def startsWithDot (seg : String) : Bool :=
  match seg.data with
  | c :: _ => c == '.'
  | [] => false

/-- What the glob match does with one file path: a file strictly below
`rootDir` yields its relative segment path, unless it has a dot
component and `dot` is unset; everything else is skipped. -/
def scanStep (rootDir : List String) (dot : Bool) (p : List String) :
    Option (List String) :=
  if rootDir.isPrefixOf p ∧ p ≠ rootDir then
    let rel := p.drop rootDir.length
    if !dot && rel.any (fun seg => startsWithDot seg) then none
    else some rel
  else none

/-- Model of `scanRecursive`: `fg.sync('**/*', { cwd, onlyFiles, dot })`,
the relative segment paths of all files strictly below `rootDir`,
skipping entries with a dot component unless `dot` is set.  A missing
root simply has no files below it (fast-glob suppresses `ENOENT`). -/
def scanRecursive (fs : FS) (rootDir : List String) (dot : Bool) :
    List (List String) :=
  fs.files.filterMap (fun e => scanStep rootDir dot e.1)

/-- Model of `clearPublicContent`: remove the public/content tree and
recreate it. -/
def clearPublicContent (fs : FS) : FS :=
  (fs.removeTree PUBLIC_CONTENT_DIR).ensureDir PUBLIC_CONTENT_DIR

/-- Model of `getContentFiles`. -/
def getContentFiles (fs : FS) : List (List String) :=
  scanRecursive fs CONTENT_DIR false

/-- The fingerprint of file bytes:
`crypto.createHash('md5').update(buffer).digest('hex').slice(0, NUM_HEX_CHARS)`. -/
def fingerprint (buffer : List Nat) : String :=
  String.mk ((md5HexChars buffer).take NUM_HEX_CHARS)

/-- The hashed file name: `name + '.' + hash + ext` with
`ext = path.extname(relPath)` and `name = path.basename(relPath, ext)`
(both only inspect the final segment). -/
def hashedName (fileName hash : String) : String :=
  basename fileName (extname fileName) ++ "." ++ hash ++ extname fileName

/-- The output path relative to the output root:
`path.posix.join(path.dirname(relPath), hashedName)`. -/
def outputRelOf (relPath : List String) (hash : String) : List String :=
  relPath.dropLast ++ [hashedName (relPath.getLastD "") hash]

/-- Destination of the copy: `path.join(PUBLIC_CONTENT_DIR, outputRel)`. -/
def destOf (relPath : List String) (hash : String) : List String :=
  PUBLIC_CONTENT_DIR ++ outputRelOf relPath hash

/-- The catalog value: `'/' + path.posix.join('content', outputRel)`. -/
def urlOf (relPath : List String) (hash : String) : String :=
  "/" ++ String.intercalate "/" ("content" :: outputRelOf relPath hash)

/-- The catalog object: original relative path (key) to published URL
(value), in insertion order, as a JavaScript object holds string keys. -/
abbrev Catalog : Type := List (List String × String)

/-- Tail of `processFiles`: the `fileList.forEach` loop.  Each iteration
reads the source bytes, fingerprints them, copies the bytes to the
destination (`fs.copySync`) and records `catalog[relPath] = url`.  A
read failure throws, aborting the loop with the state written so far
and no catalog. -/
def processFilesAux (fs : FS) (catalog : Catalog) :
    List (List String) → FS × Option Catalog
  | [] => (fs, some catalog)
  | relPath :: rest =>
    match fs.readFile (CONTENT_DIR ++ relPath) with
    | none => (fs, none)
    | some buffer =>
      let hash := fingerprint buffer
      processFilesAux
        (fs.setFile (destOf relPath hash) (FileData.readable buffer))
        (upsert catalog relPath (urlOf relPath hash)) rest

/-- Model of `processFiles`. -/
def processFiles (fileList : List (List String)) (fs : FS) :
    FS × Option Catalog :=
  processFilesAux fs [] fileList

/-- JSON string escaping as `JSON.stringify` performs it. -/
def jsonEscapeChar (c : Char) : List Char :=
  if c = '"' then ['\\', '"']
  else if c = '\\' then ['\\', '\\']
  else if c = '\x08' then ['\\', 'b']
  else if c = '\x09' then ['\\', 't']
  else if c = '\x0a' then ['\\', 'n']
  else if c = '\x0c' then ['\\', 'f']
  else if c = '\x0d' then ['\\', 'r']
  else if c.toNat < 32 then '\\' :: 'u' :: '0' :: '0' :: byteHexChars c.toNat
  else [c]

/-- A JSON string literal. -/
def jsonStr (s : String) : String :=
  String.mk ('"' :: s.data.flatMap jsonEscapeChar ++ ['"'])

/-- Serialization of the catalog:
`JSON.stringify(catalog, null, 2)` plus the trailing newline that
`fs.writeJsonSync` (jsonfile) appends.  Keys are the `/`-joined
relative paths. -/
def serializeCatalog (c : Catalog) : String :=
  match c with
  | [] => "\x7b\x7d\n"
  | _ =>
    "\x7b\n" ++
      String.intercalate ",\n"
        (c.map (fun e =>
          "  " ++ jsonStr (String.intercalate "/" e.1) ++ ": " ++ jsonStr e.2)) ++
      "\n\x7d\n"

/-- Bytes written for a string (one code point per byte in the model;
only injectivity and determinism of the encoding matter here). -/
def strBytes (s : String) : List Nat := s.data.map Char.toNat

/-- Model of `writeCatalog`: ensure the artifact's directory and write
the serialized catalog over any previous artifact. -/
def writeCatalog (catalog : Catalog) (fs : FS) : FS :=
  (fs.ensureDir CATALOG_FILE.dropLast).setFile CATALOG_FILE
    (FileData.readable (strBytes (serializeCatalog catalog)))

/-- Model of the script's `main` (the name `main` is reserved by Lean):
clear the output root, scan, process every file, write the catalog.
The second component is the catalog on success and `none` when a
file-level failure aborted the run; the first component is the
resulting filesystem (partially published on abort, exactly as the
thrown exception leaves it). -/
def mainRun (fs : FS) : FS × Option Catalog :=
  let fs1 := clearPublicContent fs
  let files := getContentFiles fs1
  match processFiles files fs1 with
  | (fs2, none) => (fs2, none)
  | (fs2, some catalog) => (writeCatalog catalog fs2, some catalog)

/-! ## Views used by the statements -/

/-- The fingerprint the pipeline computes for the content file at a
relative path, if that file is readable. -/
def fingerprintOf (fs : FS) (relPath : List String) : Option String :=
  (fs.readFile (CONTENT_DIR ++ relPath)).map (fun b => fingerprint b)

/-- The files below the content root (entries of the association list). -/
def contentSub (fs : FS) : List (List String × FileData) :=
  fs.files.filter (fun e => CONTENT_DIR.isPrefixOf e.1)

/-- The files below the output root (entries of the association list). -/
def pubSub (fs : FS) : List (List String × FileData) :=
  fs.files.filter (fun e => PUBLIC_CONTENT_DIR.isPrefixOf e.1)

/-- The published paths a run over the current content snapshot yields:
one destination `<output root>/<dir>/<basename>.<fingerprint><ext>` per
readable scanned file. -/
def runDests (fs : FS) : List (List String) :=
  (getContentFiles (clearPublicContent fs)).filterMap
    (fun rel => ((clearPublicContent fs).readFile (CONTENT_DIR ++ rel)).map
      (fun b => destOf rel (fingerprint b)))

/-! ## Concrete snapshots for the witnesses -/

/-- The spec's scenario: `docs/a.txt` with bytes `"hello"` and
`docs/b.txt` with bytes `"world"` below the content root. -/
def scenarioFS : FS :=
  { files :=
      [(["content", "docs", "a.txt"], FileData.readable (strBytes "hello")),
       (["content", "docs", "b.txt"], FileData.readable (strBytes "world"))],
    dirs := [["content"], ["content", "docs"]] }

/-- Two files with identical bytes under different names and directories. -/
def dupFS : FS :=
  { files :=
      [(["content", "docs", "a.txt"], FileData.readable (strBytes "hello")),
       (["content", "img", "copy.bin"], FileData.readable (strBytes "hello"))],
    dirs := [["content"]] }

/-- A snapshot whose content root does not exist at all. -/
def noRootFS : FS :=
  { files := [(["README.md"], FileData.readable (strBytes "hi"))],
    dirs := [] }

/-- A snapshot with an unreadable content file before a readable one. -/
def badPermFS : FS :=
  { files :=
      [(["content", "secret.txt"], FileData.unreadable),
       (["content", "later.txt"], FileData.readable (strBytes "later"))],
    dirs := [["content"]] }

/-! ## Association-list lemmas -/

section AssocLemmas

variable {α β : Type} [DecidableEq α]

theorem any_key_iff_mem (l : List (α × β)) (k : α) :
    l.any (fun e => decide (e.1 = k)) = true ↔ k ∈ l.map Prod.fst := by
  simp [List.any_eq_true, List.mem_map]

theorem find?_map_keyrep_self (l : List (α × β)) (k : α) (v : β)
    (h : k ∈ l.map Prod.fst) :
    (l.map (fun e => if e.1 = k then (k, v) else e)).find?
      (fun e => decide (e.1 = k)) = some (k, v) := by
  induction l with
  | nil => simp at h
  | cons e t ih =>
    simp only [List.map_cons]
    by_cases hek : e.1 = k
    · rw [if_pos hek, List.find?_cons_of_pos _ (by simp)]
    · rw [if_neg hek, List.find?_cons_of_neg _ (by simp [hek])]
      apply ih
      simp only [List.map_cons, List.mem_cons] at h
      rcases h with h | h
      · exact absurd h.symm hek
      · exact h

theorem find?_map_keyrep_ne (l : List (α × β)) (k q : α) (v : β) (hq : q ≠ k) :
    (l.map (fun e => if e.1 = k then (k, v) else e)).find?
      (fun e => decide (e.1 = q)) = l.find? (fun e => decide (e.1 = q)) := by
  induction l with
  | nil => simp
  | cons e t ih =>
    simp only [List.map_cons]
    by_cases hek : e.1 = k
    · rw [if_pos hek,
        List.find?_cons_of_neg _ (by simp only [decide_eq_true_eq]; exact fun h => hq h.symm),
        List.find?_cons_of_neg _
          (by simp only [decide_eq_true_eq, hek]; exact fun h => hq h.symm)]
      exact ih
    · rw [if_neg hek]
      by_cases heq : e.1 = q
      · rw [List.find?_cons_of_pos _ (by simp [heq]),
          List.find?_cons_of_pos _ (by simp [heq])]
      · rw [List.find?_cons_of_neg _ (by simp [heq]),
          List.find?_cons_of_neg _ (by simp [heq])]
        exact ih

theorem find?_eq_none_of_not_mem_keys {l : List (α × β)} {k : α}
    (h : k ∉ l.map Prod.fst) :
    l.find? (fun e => decide (e.1 = k)) = none := by
  rw [List.find?_eq_none]
  intro x hx
  simp only [decide_eq_true_eq]
  intro hxk
  apply h
  rw [← hxk]
  exact List.mem_map_of_mem Prod.fst hx

theorem lookupA_upsert_self (l : List (α × β)) (k : α) (v : β) :
    lookupA (upsert l k v) k = some v := by
  unfold upsert lookupA
  by_cases h : k ∈ l.map Prod.fst
  · rw [if_pos ((any_key_iff_mem l k).mpr h), find?_map_keyrep_self l k v h]
    rfl
  · rw [if_neg (fun hc => h ((any_key_iff_mem l k).mp hc))]
    rw [List.find?_append, find?_eq_none_of_not_mem_keys h]
    simp

theorem lookupA_upsert_ne (l : List (α × β)) (k q : α) (v : β) (hq : q ≠ k) :
    lookupA (upsert l k v) q = lookupA l q := by
  unfold upsert lookupA
  by_cases h : l.any (fun e => decide (e.1 = k)) = true
  · rw [if_pos h, find?_map_keyrep_ne l k q v hq]
  · rw [if_neg h, List.find?_append]
    have hnone : ([(k, v)].find? fun e => decide (e.1 = q)) = none := by
      simp [Ne.symm hq]
    rw [hnone, Option.or_none]

theorem find?_filter_keyq (l : List (α × β)) (keep : α × β → Bool) (q : α)
    (hk : ∀ e : α × β, e.1 = q → keep e = true) :
    (l.filter keep).find? (fun e => decide (e.1 = q)) =
      l.find? (fun e => decide (e.1 = q)) := by
  induction l with
  | nil => simp
  | cons e t ih =>
    by_cases hke : keep e = true
    · rw [List.filter_cons_of_pos hke]
      by_cases heq : e.1 = q
      · rw [List.find?_cons_of_pos _ (by simp [heq]),
          List.find?_cons_of_pos _ (by simp [heq])]
      · rw [List.find?_cons_of_neg _ (by simp [heq]),
          List.find?_cons_of_neg _ (by simp [heq])]
        exact ih
    · rw [List.filter_cons_of_neg (by simpa using hke),
        List.find?_cons_of_neg _
          (by simp only [decide_eq_true_eq]; intro heq; exact hke (hk e heq))]
      exact ih

theorem lookupA_filter (l : List (α × β)) (keep : α × β → Bool) (q : α)
    (hk : ∀ e : α × β, e.1 = q → keep e = true) :
    lookupA (l.filter keep) q = lookupA l q := by
  unfold lookupA
  rw [find?_filter_keyq l keep q hk]

theorem filter_map_keyfun {γ δ : Type} (l : List (γ × δ)) (f : γ × δ → γ × δ)
    (q : γ → Bool) (hf : ∀ e, q (f e).1 = q e.1) :
    (l.map f).filter (fun e => q e.1) = (l.filter (fun e => q e.1)).map f := by
  induction l with
  | nil => simp
  | cons e t ih =>
    simp only [List.map_cons, List.filter_cons, hf e, ih]
    by_cases hq : q e.1 = true
    · simp [hq]
    · simp [hq]

theorem any_filter_false {γ : Type} (l : List γ) (keep p : γ → Bool)
    (h : l.any p = false) : (l.filter keep).any p = false := by
  rw [List.any_eq_false] at h ⊢
  intro x hx
  exact h x (List.mem_of_mem_filter hx)

theorem filter_upsert_true (l : List (α × β)) (k : α) (v : β) (q : α → Bool)
    (hq : q k = true) :
    (upsert l k v).filter (fun e => q e.1) =
      upsert (l.filter (fun e => q e.1)) k v := by
  unfold upsert
  by_cases h : l.any (fun e => decide (e.1 = k)) = true
  · rw [if_pos h]
    rw [filter_map_keyfun l _ q
      (fun e => by by_cases hek : e.1 = k <;> simp [hek, hq])]
    have hc : (l.filter (fun e => q e.1)).any (fun e => decide (e.1 = k)) = true := by
      rcases List.any_eq_true.mp h with ⟨e, he, hek⟩
      have hek' : e.1 = k := by simpa using hek
      exact List.any_eq_true.mpr
        ⟨e, List.mem_filter.mpr ⟨he, by rw [hek']; exact hq⟩, hek⟩
    rw [if_pos hc]
  · have hf : (l.filter (fun e => q e.1)).any (fun e => decide (e.1 = k)) = false :=
      any_filter_false l _ _ (by rwa [Bool.not_eq_true] at h)
    rw [if_neg h, if_neg (by simp [hf]), List.filter_append]
    simp [hq]

theorem filter_map_keyrep_false (l : List (α × β)) (k : α) (v : β) (q : α → Bool)
    (hq : q k = false) :
    (l.map (fun e => if e.1 = k then (k, v) else e)).filter (fun e => q e.1) =
      l.filter (fun e => q e.1) := by
  induction l with
  | nil => simp
  | cons e t ih =>
    simp only [List.map_cons, List.filter_cons, ih]
    by_cases hek : e.1 = k
    · simp [hek, hq]
    · by_cases hqe : q e.1 = true
      · simp [hek, hqe]
      · simp [hek, hqe]

theorem filter_upsert_false (l : List (α × β)) (k : α) (v : β) (q : α → Bool)
    (hq : q k = false) :
    (upsert l k v).filter (fun e => q e.1) = l.filter (fun e => q e.1) := by
  unfold upsert
  by_cases h : l.any (fun e => decide (e.1 = k)) = true
  · rw [if_pos h]
    exact filter_map_keyrep_false l k v q hq
  · rw [if_neg h, List.filter_append]
    simp [hq]

theorem upsert_of_not_mem (l : List (α × β)) (k : α) (v : β)
    (h : k ∉ l.map Prod.fst) : upsert l k v = l ++ [(k, v)] := by
  unfold upsert
  rw [if_neg (fun hc => h ((any_key_iff_mem l k).mp hc))]

end AssocLemmas

/-! ## Path-constant disjointness -/

theorem content_not_prefix_pub (x : List String) :
    CONTENT_DIR.isPrefixOf (PUBLIC_CONTENT_DIR ++ x) = false := by
  show List.isPrefixOf ["content"] ("public" :: "content" :: x) = false
  rw [List.isPrefixOf_cons₂]
  have h : (("content" : String) == "public") = false := by decide
  rw [h, Bool.false_and]

theorem pub_not_prefix_content (x : List String) :
    PUBLIC_CONTENT_DIR.isPrefixOf (CONTENT_DIR ++ x) = false := by
  show List.isPrefixOf ["public", "content"] ("content" :: x) = false
  rw [List.isPrefixOf_cons₂]
  have h : (("public" : String) == "content") = false := by decide
  rw [h, Bool.false_and]

theorem content_not_prefix_catalog :
    CONTENT_DIR.isPrefixOf CATALOG_FILE = false := by decide

theorem pub_not_prefix_catalog :
    PUBLIC_CONTENT_DIR.isPrefixOf CATALOG_FILE = false := by decide

theorem catalog_ne_pub_append (x : List String) :
    CATALOG_FILE ≠ PUBLIC_CONTENT_DIR ++ x := by
  intro h
  simp [CATALOG_FILE, PUBLIC_CONTENT_DIR] at h

theorem isPrefixOf_self_append (p x : List String) :
    p.isPrefixOf (p ++ x) = true := by
  simp

theorem ne_of_outside_pub {q : List String}
    (h : PUBLIC_CONTENT_DIR.isPrefixOf q = false) (x : List String) :
    q ≠ PUBLIC_CONTENT_DIR ++ x := by
  intro hq
  rw [hq, isPrefixOf_self_append] at h
  exact absurd h (by decide)

/-! ## Filesystem operation lemmas -/

theorem lookupFile_setFile_self (fs : FS) (p : List String) (d : FileData) :
    (fs.setFile p d).lookupFile p = some d :=
  lookupA_upsert_self fs.files p d

theorem lookupFile_setFile_ne (fs : FS) (p q : List String) (d : FileData)
    (h : q ≠ p) : (fs.setFile p d).lookupFile q = fs.lookupFile q :=
  lookupA_upsert_ne fs.files p q d h

theorem lookupFile_removeTree (fs : FS) (r q : List String)
    (h : r.isPrefixOf q = false) :
    (fs.removeTree r).lookupFile q = fs.lookupFile q := by
  apply lookupA_filter
  intro e he
  simp [he, h]

theorem lookupFile_ensureDir (fs : FS) (p q : List String) :
    (fs.ensureDir p).lookupFile q = fs.lookupFile q := rfl

theorem contentSub_setFile_pub (fs : FS) (x : List String) (d : FileData) :
    contentSub (fs.setFile (PUBLIC_CONTENT_DIR ++ x) d) = contentSub fs :=
  filter_upsert_false fs.files (PUBLIC_CONTENT_DIR ++ x) d
    (fun p => CONTENT_DIR.isPrefixOf p) (content_not_prefix_pub x)

theorem contentSub_setFile_catalog (fs : FS) (d : FileData) :
    contentSub (fs.setFile CATALOG_FILE d) = contentSub fs :=
  filter_upsert_false fs.files CATALOG_FILE d
    (fun p => CONTENT_DIR.isPrefixOf p) content_not_prefix_catalog

theorem pubSub_setFile_catalog (fs : FS) (d : FileData) :
    pubSub (fs.setFile CATALOG_FILE d) = pubSub fs :=
  filter_upsert_false fs.files CATALOG_FILE d
    (fun p => PUBLIC_CONTENT_DIR.isPrefixOf p) pub_not_prefix_catalog

theorem pubSub_setFile_pub (fs : FS) (x : List String) (d : FileData) :
    pubSub (fs.setFile (PUBLIC_CONTENT_DIR ++ x) d) =
      upsert (pubSub fs) (PUBLIC_CONTENT_DIR ++ x) d :=
  filter_upsert_true fs.files (PUBLIC_CONTENT_DIR ++ x) d
    (fun p => PUBLIC_CONTENT_DIR.isPrefixOf p) (isPrefixOf_self_append _ x)

theorem contentSub_ensureDir (fs : FS) (p : List String) :
    contentSub (fs.ensureDir p) = contentSub fs := rfl

theorem pubSub_ensureDir (fs : FS) (p : List String) :
    pubSub (fs.ensureDir p) = pubSub fs := rfl

theorem contentSub_removeTree_pub (fs : FS) :
    contentSub (fs.removeTree PUBLIC_CONTENT_DIR) = contentSub fs := by
  show List.filter _ (List.filter _ fs.files) = List.filter _ fs.files
  rw [List.filter_filter]
  apply List.filter_congr
  intro e he
  cases hc : CONTENT_DIR.isPrefixOf e.1 with
  | false => rw [Bool.false_and]
  | true =>
    rcases List.isPrefixOf_iff_prefix.mp hc with ⟨rest, hrest⟩
    rw [Bool.true_and, ← hrest, pub_not_prefix_content]
    rfl

theorem contentSub_clear (fs : FS) :
    contentSub (clearPublicContent fs) = contentSub fs :=
  contentSub_removeTree_pub fs

theorem pubSub_clear (fs : FS) : pubSub (clearPublicContent fs) = [] := by
  show List.filter _ (List.filter _ fs.files) = []
  rw [List.filter_filter]
  rw [List.filter_eq_nil_iff]
  intro e he
  cases hp : PUBLIC_CONTENT_DIR.isPrefixOf e.1 with
  | false => simp [hp]
  | true => simp [hp]

/-! ## Scanner lemmas -/

theorem filterMap_congr_filter {γ δ : Type} (l : List γ) (f : γ → Option δ)
    (keep : γ → Bool) (hf : ∀ e, keep e = false → f e = none) :
    l.filterMap f = (l.filter keep).filterMap f := by
  induction l with
  | nil => rfl
  | cons e t ih =>
    cases hk : keep e with
    | true =>
      rw [List.filter_cons_of_pos hk]
      simp only [List.filterMap_cons]
      cases f e <;> simp [ih]
    | false =>
      rw [List.filter_cons_of_neg (by simp [hk])]
      simp only [List.filterMap_cons, hf e hk, ih]

theorem scanRecursive_eq_contentSub (fs : FS) (dot : Bool) :
    scanRecursive fs CONTENT_DIR dot =
      (contentSub fs).filterMap (fun e => scanStep CONTENT_DIR dot e.1) := by
  apply filterMap_congr_filter
  intro e hk
  unfold scanStep
  rw [if_neg]
  intro hc
  rw [hk] at hc
  exact Bool.false_ne_true hc.1

theorem scan_eq_of_contentSub {fs₁ fs₂ : FS}
    (h : contentSub fs₁ = contentSub fs₂) (dot : Bool) :
    scanRecursive fs₁ CONTENT_DIR dot = scanRecursive fs₂ CONTENT_DIR dot := by
  rw [scanRecursive_eq_contentSub, scanRecursive_eq_contentSub, h]

theorem readFile_eq_of_contentSub {fs₁ fs₂ : FS}
    (h : contentSub fs₁ = contentSub fs₂) (rel : List String) :
    fs₁.readFile (CONTENT_DIR ++ rel) = fs₂.readFile (CONTENT_DIR ++ rel) := by
  have key : ∀ fs : FS,
      fs.lookupFile (CONTENT_DIR ++ rel) =
        lookupA (contentSub fs) (CONTENT_DIR ++ rel) := by
    intro fs
    exact (lookupA_filter fs.files _ _
      (fun e he => by
        show CONTENT_DIR.isPrefixOf e.1 = true
        rw [he, isPrefixOf_self_append])).symm
  unfold FS.readFile
  rw [key fs₁, key fs₂, h]

/-! ## Processing-loop lemmas -/

theorem destOf_eq (rel : List String) (hash : String) :
    destOf rel hash = PUBLIC_CONTENT_DIR ++ outputRelOf rel hash := rfl

theorem readFile_setFile_ne (fs : FS) (p q : List String) (d : FileData)
    (h : q ≠ p) : (fs.setFile p d).readFile q = fs.readFile q := by
  unfold FS.readFile
  rw [lookupFile_setFile_ne fs p q d h]

theorem procAux_lookup_frame (R : List (List String)) (fs : FS) (cat : Catalog)
    (q : List String) (h : PUBLIC_CONTENT_DIR.isPrefixOf q = false) :
    ((processFilesAux fs cat R).1).lookupFile q = fs.lookupFile q := by
  induction R generalizing fs cat with
  | nil => rfl
  | cons rel rest ih =>
    cases hr : fs.readFile (CONTENT_DIR ++ rel) with
    | none => simp only [processFilesAux, hr]
    | some buffer =>
      simp only [processFilesAux, hr]
      rw [ih]
      exact lookupFile_setFile_ne fs _ q _ (ne_of_outside_pub h _)

theorem procAux_readFile_frame (R : List (List String)) (fs : FS)
    (cat : Catalog) (rel : List String) :
    ((processFilesAux fs cat R).1).readFile (CONTENT_DIR ++ rel) =
      fs.readFile (CONTENT_DIR ++ rel) := by
  unfold FS.readFile
  rw [procAux_lookup_frame R fs cat _ (pub_not_prefix_content rel)]

theorem procAux_sim (R : List (List String)) (fs₁ fs₂ : FS) (cat : Catalog)
    (hc : contentSub fs₁ = contentSub fs₂) (hp : pubSub fs₁ = pubSub fs₂) :
    (processFilesAux fs₁ cat R).2 = (processFilesAux fs₂ cat R).2 ∧
    contentSub (processFilesAux fs₁ cat R).1 =
      contentSub (processFilesAux fs₂ cat R).1 ∧
    pubSub (processFilesAux fs₁ cat R).1 =
      pubSub (processFilesAux fs₂ cat R).1 := by
  induction R generalizing fs₁ fs₂ cat with
  | nil => exact ⟨rfl, hc, hp⟩
  | cons rel rest ih =>
    have hr : fs₁.readFile (CONTENT_DIR ++ rel) =
        fs₂.readFile (CONTENT_DIR ++ rel) := readFile_eq_of_contentSub hc rel
    cases hr2 : fs₂.readFile (CONTENT_DIR ++ rel) with
    | none =>
      have hr1 : fs₁.readFile (CONTENT_DIR ++ rel) = none := hr.trans hr2
      refine ⟨?_, ?_, ?_⟩
      · simp only [processFilesAux, hr1, hr2]
      · simp only [processFilesAux, hr1, hr2]
        exact hc
      · simp only [processFilesAux, hr1, hr2]
        exact hp
    | some buffer =>
      have hr1 : fs₁.readFile (CONTENT_DIR ++ rel) = some buffer := hr.trans hr2
      simp only [processFilesAux, hr1, hr2, destOf_eq]
      apply ih
      · rw [contentSub_setFile_pub, contentSub_setFile_pub]
        exact hc
      · rw [pubSub_setFile_pub, pubSub_setFile_pub, hp]

theorem procAux_abort (R : List (List String)) (fs : FS) (cat : Catalog)
    (rel : List String) (hrel : rel ∈ R)
    (hr : fs.readFile (CONTENT_DIR ++ rel) = none) :
    (processFilesAux fs cat R).2 = none := by
  induction R generalizing fs cat with
  | nil => cases hrel
  | cons r rest ih =>
    cases hr0 : fs.readFile (CONTENT_DIR ++ r) with
    | none => simp only [processFilesAux, hr0]
    | some buffer =>
      rcases List.mem_cons.mp hrel with heq | hmem
      · rw [heq] at hr
        rw [hr] at hr0
        cases hr0
      · simp only [processFilesAux, hr0, destOf_eq]
        apply ih _ _ hmem
        rw [readFile_setFile_ne _ _ _ _
          (ne_of_outside_pub (pub_not_prefix_content rel) _)]
        exact hr

/-! ## Run-level lemmas -/

theorem clear_lookup_frame (fs : FS) (q : List String)
    (h : PUBLIC_CONTENT_DIR.isPrefixOf q = false) :
    (clearPublicContent fs).lookupFile q = fs.lookupFile q := by
  unfold clearPublicContent
  rw [lookupFile_ensureDir, lookupFile_removeTree _ _ _ h]

theorem procAux_contentSub (R : List (List String)) (fs : FS) (cat : Catalog) :
    contentSub ((processFilesAux fs cat R).1) = contentSub fs := by
  induction R generalizing fs cat with
  | nil => rfl
  | cons rel rest ih =>
    cases hr : fs.readFile (CONTENT_DIR ++ rel) with
    | none => simp only [processFilesAux, hr]
    | some buffer =>
      simp only [processFilesAux, hr, destOf_eq]
      rw [ih, contentSub_setFile_pub]

theorem contentSub_writeCatalog (c : Catalog) (fs : FS) :
    contentSub (writeCatalog c fs) = contentSub fs := by
  unfold writeCatalog
  rw [show contentSub ((fs.ensureDir CATALOG_FILE.dropLast).setFile CATALOG_FILE
      (FileData.readable (strBytes (serializeCatalog c)))) =
    contentSub (fs.ensureDir CATALOG_FILE.dropLast) from
    contentSub_setFile_catalog _ _]
  rw [contentSub_ensureDir]

theorem pubSub_writeCatalog (c : Catalog) (fs : FS) :
    pubSub (writeCatalog c fs) = pubSub fs := by
  unfold writeCatalog
  rw [show pubSub ((fs.ensureDir CATALOG_FILE.dropLast).setFile CATALOG_FILE
      (FileData.readable (strBytes (serializeCatalog c)))) =
    pubSub (fs.ensureDir CATALOG_FILE.dropLast) from pubSub_setFile_catalog _ _]
  rw [pubSub_ensureDir]

theorem lookup_writeCatalog (c : Catalog) (fs : FS) :
    (writeCatalog c fs).lookupFile CATALOG_FILE =
      some (FileData.readable (strBytes (serializeCatalog c))) :=
  lookupFile_setFile_self _ _ _

theorem mainRun_succ_decomp (fs : FS) (c : Catalog)
    (h : (mainRun fs).2 = some c) :
    ∃ fs2, processFilesAux (clearPublicContent fs) []
        (getContentFiles (clearPublicContent fs)) = (fs2, some c) ∧
      (mainRun fs).1 = writeCatalog c fs2 := by
  cases hres : processFilesAux (clearPublicContent fs) []
      (getContentFiles (clearPublicContent fs)) with
  | mk fs2 oc =>
    cases oc with
    | none => simp [mainRun, processFiles, hres] at h
    | some c' =>
      simp only [mainRun, processFiles, hres, Option.some.injEq] at h
      subst h
      refine ⟨fs2, rfl, ?_⟩
      simp only [mainRun, processFiles, hres]

theorem mainRun_preserves_contentSub (fs : FS) :
    contentSub ((mainRun fs).1) = contentSub fs := by
  cases hres : processFilesAux (clearPublicContent fs) []
      (getContentFiles (clearPublicContent fs)) with
  | mk fs2 oc =>
    have hcs : contentSub fs2 = contentSub fs := by
      have h1 := procAux_contentSub
        (getContentFiles (clearPublicContent fs)) (clearPublicContent fs) []
      rw [hres] at h1
      rw [show contentSub (fs2, oc).1 = contentSub fs2 from rfl] at h1
      rw [h1, contentSub_clear]
    cases oc with
    | none =>
      simp only [mainRun, processFiles, hres]
      exact hcs
    | some c =>
      simp only [mainRun, processFiles, hres]
      rw [contentSub_writeCatalog]
      exact hcs

theorem mainRun_lookup_frame (fs : FS) (q : List String)
    (hq : PUBLIC_CONTENT_DIR.isPrefixOf q = false) (hcat : q ≠ CATALOG_FILE) :
    ((mainRun fs).1).lookupFile q = fs.lookupFile q := by
  have hclear : (clearPublicContent fs).lookupFile q = fs.lookupFile q :=
    clear_lookup_frame fs q hq
  have hproc := procAux_lookup_frame
    (getContentFiles (clearPublicContent fs)) (clearPublicContent fs) [] q hq
  cases hres : processFilesAux (clearPublicContent fs) []
      (getContentFiles (clearPublicContent fs)) with
  | mk fs2 oc =>
    rw [hres] at hproc
    rw [show ((fs2, oc).1).lookupFile q = fs2.lookupFile q from rfl] at hproc
    cases oc with
    | none =>
      simp only [mainRun, processFiles, hres]
      exact hproc.trans hclear
    | some catalog =>
      simp only [mainRun, processFiles, hres]
      unfold writeCatalog
      rw [lookupFile_setFile_ne _ _ _ _ hcat, lookupFile_ensureDir]
      exact hproc.trans hclear

theorem procAux_dirs (R : List (List String)) (fs : FS) (cat : Catalog) :
    ((processFilesAux fs cat R).1).dirs = fs.dirs := by
  induction R generalizing fs cat with
  | nil => rfl
  | cons rel rest ih =>
    cases hr : fs.readFile (CONTENT_DIR ++ rel) with
    | none => simp only [processFilesAux, hr]
    | some buffer =>
      simp only [processFilesAux, hr]
      rw [ih]
      rfl

theorem mem_dirs_ensureDir_ne (fs : FS) (p d : List String) (h : d ≠ p) :
    (d ∈ (fs.ensureDir p).dirs ↔ d ∈ fs.dirs) := by
  unfold FS.ensureDir
  by_cases hp : p ∈ fs.dirs
  · rw [if_pos hp]
  · rw [if_neg hp]
    simp [List.mem_append, h]

theorem mem_dirs_removeTree (fs : FS) (r d : List String)
    (h : r.isPrefixOf d = false) :
    (d ∈ (fs.removeTree r).dirs ↔ d ∈ fs.dirs) := by
  unfold FS.removeTree
  simp only [List.mem_filter]
  constructor
  · exact fun hx => hx.1
  · intro hx
    refine ⟨hx, ?_⟩
    rw [h]
    rfl

theorem mainRun_dirs_content (fs : FS) (d : List String)
    (hd : CONTENT_DIR.isPrefixOf d = true) :
    (d ∈ ((mainRun fs).1).dirs ↔ d ∈ fs.dirs) := by
  rcases List.isPrefixOf_iff_prefix.mp hd with ⟨rest, hrest⟩
  have hpub : PUBLIC_CONTENT_DIR.isPrefixOf d = false := by
    rw [← hrest]
    exact pub_not_prefix_content rest
  have hnp : d ≠ PUBLIC_CONTENT_DIR := by
    intro hdp
    rw [hdp] at hrest
    simp [CONTENT_DIR, PUBLIC_CONTENT_DIR] at hrest
  have hna : d ≠ CATALOG_FILE.dropLast := by
    intro hdp
    rw [hdp] at hrest
    simp [CONTENT_DIR, CATALOG_FILE] at hrest
  have hdc : d ∈ (clearPublicContent fs).dirs ↔ d ∈ fs.dirs := by
    unfold clearPublicContent
    rw [mem_dirs_ensureDir_ne _ _ _ hnp, mem_dirs_removeTree _ _ _ hpub]
  cases hres : processFilesAux (clearPublicContent fs) []
      (getContentFiles (clearPublicContent fs)) with
  | mk fs2 oc =>
    have hd2 : fs2.dirs = (clearPublicContent fs).dirs := by
      have h1 := procAux_dirs
        (getContentFiles (clearPublicContent fs)) (clearPublicContent fs) []
      rw [hres] at h1
      exact h1
    cases oc with
    | none =>
      simp only [mainRun, processFiles, hres]
      rw [show ((fs2, (none : Option Catalog)).1).dirs =
        (clearPublicContent fs).dirs from hd2]
      exact hdc
    | some catalog =>
      simp only [mainRun, processFiles, hres]
      unfold writeCatalog FS.setFile
      rw [show ∀ gs : FS, ({ gs with
          files := upsert gs.files CATALOG_FILE
            (FileData.readable (strBytes (serializeCatalog catalog))) } : FS).dirs
          = gs.dirs from fun gs => rfl]
      rw [mem_dirs_ensureDir_ne _ _ _ hna, hd2]
      exact hdc

/-! ## Empty-root lemmas -/

theorem scan_empty_of_no_content (fs : FS)
    (hf : ∀ e ∈ fs.files,
      (CONTENT_DIR.isPrefixOf e.1 && (CONTENT_DIR != e.1)) = false) :
    getContentFiles fs = [] := by
  unfold getContentFiles scanRecursive scanStep
  rw [List.filterMap_eq_nil_iff]
  intro e he
  have h := hf e he
  cases hp : CONTENT_DIR.isPrefixOf e.1 with
  | false =>
    rw [if_neg]
    rintro ⟨hc1, hc2⟩
    exact Bool.false_ne_true hc1
  | true =>
    rw [hp, Bool.true_and] at h
    have heq : CONTENT_DIR = e.1 := by simpa using h
    rw [if_neg]
    intro hc
    exact hc.2 heq.symm

theorem no_content_of_dirExists_false (fs : FS)
    (h : fs.dirExists CONTENT_DIR = false) :
    ∀ e ∈ fs.files,
      (CONTENT_DIR.isPrefixOf e.1 && (CONTENT_DIR != e.1)) = false := by
  unfold FS.dirExists at h
  rw [Bool.or_eq_false_iff] at h
  have h2 := h.2
  rw [List.any_eq_false] at h2
  intro e he
  have h3 := h2 e he
  rwa [Bool.not_eq_true] at h3

theorem clear_files_sub (fs : FS) (e : List String × FileData)
    (he : e ∈ (clearPublicContent fs).files) : e ∈ fs.files :=
  List.mem_of_mem_filter he

/-! ## Claim C1 -/

/-- C1: the fingerprint (MD5 hex digest truncated to `NUM_HEX_CHARS`) is
a function of the file's byte content alone: two files with identical
bytes get the identical fingerprint string, regardless of their names,
directories, or even the snapshot they live in. -/
theorem C1_fingerprint_function_of_bytes (fs₁ fs₂ : FS) (p₁ p₂ : List String)
    (b : List Nat)
    (h₁ : fs₁.readFile (CONTENT_DIR ++ p₁) = some b)
    (h₂ : fs₂.readFile (CONTENT_DIR ++ p₂) = some b) :
    fingerprintOf fs₁ p₁ = fingerprintOf fs₂ p₂ ∧
    fingerprintOf fs₁ p₁ = some (fingerprint b) := by
  unfold fingerprintOf
  rw [h₁, h₂]
  exact ⟨rfl, rfl⟩

/-- C1 witness: two files with the bytes of `"hello"` under different
names and directories receive the same fingerprint. -/
theorem C1_witness :
    dupFS.readFile (CONTENT_DIR ++ ["docs", "a.txt"]) =
      some (strBytes "hello") ∧
    dupFS.readFile (CONTENT_DIR ++ ["img", "copy.bin"]) =
      some (strBytes "hello") ∧
    (fingerprintOf dupFS ["docs", "a.txt"] =
        fingerprintOf dupFS ["img", "copy.bin"] ∧
      fingerprintOf dupFS ["docs", "a.txt"] =
        some (fingerprint (strBytes "hello"))) :=
  ⟨by decide, by decide,
    C1_fingerprint_function_of_bytes dupFS dupFS ["docs", "a.txt"]
      ["img", "copy.bin"] (strBytes "hello") (by decide) (by decide)⟩

/-! ## Claim C7 -/

/-- C7: a file-level failure aborts the whole run immediately, with no
retry and no skipping: a read failure stops the loop with the state as
it was at the failure (no later file is processed), an unreadable
scanned file makes the whole run abort, and an aborted run writes no
catalog artifact. -/
theorem C7_failure_aborts_run :
    (∀ (fs : FS) (cat : Catalog) (bad : List String)
        (rest : List (List String)),
      fs.readFile (CONTENT_DIR ++ bad) = none →
      processFilesAux fs cat (bad :: rest) = (fs, none)) ∧
    (∀ (fs : FS) (rel : List String),
      rel ∈ getContentFiles (clearPublicContent fs) →
      (clearPublicContent fs).readFile (CONTENT_DIR ++ rel) = none →
      (mainRun fs).2 = none) ∧
    (∀ fs : FS, (mainRun fs).2 = none →
      ((mainRun fs).1).lookupFile CATALOG_FILE =
        fs.lookupFile CATALOG_FILE) := by
  refine ⟨?_, ?_, ?_⟩
  · intro fs cat bad rest hr
    simp only [processFilesAux, hr]
  · intro fs rel hrel hr
    have habort := procAux_abort (getContentFiles (clearPublicContent fs))
      (clearPublicContent fs) [] rel hrel hr
    cases hres : processFilesAux (clearPublicContent fs) []
        (getContentFiles (clearPublicContent fs)) with
    | mk fs2 oc =>
      rw [hres] at habort
      cases oc with
      | none => simp only [mainRun, processFiles, hres]
      | some c => cases habort
  · intro fs hnone
    have hproc := procAux_lookup_frame
      (getContentFiles (clearPublicContent fs)) (clearPublicContent fs) []
      CATALOG_FILE pub_not_prefix_catalog
    have hclear := clear_lookup_frame fs CATALOG_FILE pub_not_prefix_catalog
    cases hres : processFilesAux (clearPublicContent fs) []
        (getContentFiles (clearPublicContent fs)) with
    | mk fs2 oc =>
      rw [hres] at hproc
      cases oc with
      | none =>
        simp only [mainRun, processFiles, hres]
        exact hproc.trans hclear
      | some c => simp [mainRun, processFiles, hres] at hnone

/-- C7 witness: with an unreadable `content/secret.txt`, processing stops
at that file leaving the state untouched, the run aborts, and no catalog
is written. -/
theorem C7_witness :
    badPermFS.readFile (CONTENT_DIR ++ ["secret.txt"]) = none ∧
    processFilesAux badPermFS [] [["secret.txt"], ["later.txt"]] =
      (badPermFS, none) ∧
    (mainRun badPermFS).2 = none ∧
    ((mainRun badPermFS).1).lookupFile CATALOG_FILE =
      badPermFS.lookupFile CATALOG_FILE :=
  ⟨by decide,
    C7_failure_aborts_run.1 badPermFS [] ["secret.txt"] [["later.txt"]]
      (by decide),
    C7_failure_aborts_run.2.1 badPermFS ["secret.txt"]
      (by
        have hs : getContentFiles (clearPublicContent badPermFS) =
            [["secret.txt"], ["later.txt"]] := by decide
        rw [hs]
        exact List.Mem.head _)
      (by decide),
    C7_failure_aborts_run.2.2 badPermFS
      (C7_failure_aborts_run.2.1 badPermFS ["secret.txt"]
        (by
          have hs : getContentFiles (clearPublicContent badPermFS) =
              [["secret.txt"], ["later.txt"]] := by decide
          rw [hs]
          exact List.Mem.head _)
        (by decide))⟩

/-! ## Claim C8 -/

/-- C8 counterexample: on a snapshot whose content root does not exist,
the scanner does not fail: it returns the empty list (fast-glob
suppresses the `ENOENT`), and the run proceeds exactly as for an empty
root, completing successfully and writing an empty catalog artifact. -/
theorem C8_counterexample :
    noRootFS.dirExists CONTENT_DIR = false ∧
    getContentFiles noRootFS = [] ∧
    (mainRun noRootFS).2 = some [] ∧
    ((mainRun noRootFS).1).lookupFile CATALOG_FILE =
      some (FileData.readable (strBytes "\x7b\x7d\n")) := by decide

/-- C8 (amended): if the content root does not exist, the scanner
returns the empty file list and the run proceeds as if the root were an
empty directory, completing with an empty catalog, rather than failing
with a NotFoundError. -/
theorem C8_missing_root_runs_empty (fs : FS)
    (h : fs.dirExists CONTENT_DIR = false) :
    getContentFiles fs = [] ∧ (mainRun fs).2 = some [] := by
  have hf := no_content_of_dirExists_false fs h
  have h1 : getContentFiles fs = [] := scan_empty_of_no_content fs hf
  have hf2 : ∀ e ∈ (clearPublicContent fs).files,
      (CONTENT_DIR.isPrefixOf e.1 && (CONTENT_DIR != e.1)) = false :=
    fun e he => hf e (clear_files_sub fs e he)
  have h2 : getContentFiles (clearPublicContent fs) = [] :=
    scan_empty_of_no_content _ hf2
  refine ⟨h1, ?_⟩
  simp only [mainRun, processFiles, h2, processFilesAux]

/-- C8 witness: the amended statement at the concrete snapshot without a
content root. -/
theorem C8_witness :
    getContentFiles noRootFS = [] ∧ (mainRun noRootFS).2 = some [] :=
  C8_missing_root_runs_empty noRootFS (by decide)

/-! ## Claim C9 -/

/-- C9: the pipeline never mutates anything outside its outputs: every
path that is not below the output root and is not the catalog artifact
path keeps its binding (in particular every file below the content root
is byte-for-byte unchanged), and every directory below the content root
exists after the run exactly as before. -/
theorem C9_content_root_never_mutated (fs : FS) (q d : List String)
    (hq : PUBLIC_CONTENT_DIR.isPrefixOf q = false) (hcat : q ≠ CATALOG_FILE)
    (hd : CONTENT_DIR.isPrefixOf d = true) :
    ((mainRun fs).1).lookupFile q = fs.lookupFile q ∧
    (d ∈ ((mainRun fs).1).dirs ↔ d ∈ fs.dirs) :=
  ⟨mainRun_lookup_frame fs q hq hcat, mainRun_dirs_content fs d hd⟩

/-- C9 witness: in the spec scenario, the source file `content/docs/a.txt`
and the directory `content/docs` are untouched by the run. -/
theorem C9_witness :
    ((mainRun scenarioFS).1).lookupFile ["content", "docs", "a.txt"] =
      scenarioFS.lookupFile ["content", "docs", "a.txt"] ∧
    (["content", "docs"] ∈ ((mainRun scenarioFS).1).dirs ↔
      ["content", "docs"] ∈ scenarioFS.dirs) :=
  C9_content_root_never_mutated scenarioFS ["content", "docs", "a.txt"]
    ["content", "docs"] (by decide) (by decide) (by decide)

/-! ## Claim C2 -/

theorem mainRun_snd (fs : FS) :
    (mainRun fs).2 = (processFilesAux (clearPublicContent fs) []
      (getContentFiles (clearPublicContent fs))).2 := by
  cases hres : processFilesAux (clearPublicContent fs) []
      (getContentFiles (clearPublicContent fs)) with
  | mk fs2 oc => cases oc <;> simp [mainRun, processFiles, hres]

/-- C2: the pipeline is idempotent: running it a second time on the
state a successful run left behind (the content root being unchanged —
indeed the run never touches it) yields the same catalog, a
byte-identical catalog artifact on disk, and the identical list of
published files under the output root. -/
theorem C2_pipeline_idempotent (fs : FS) (c : Catalog)
    (h : (mainRun fs).2 = some c) :
    (mainRun (mainRun fs).1).2 = some c ∧
    ((mainRun (mainRun fs).1).1).lookupFile CATALOG_FILE =
      ((mainRun fs).1).lookupFile CATALOG_FILE ∧
    pubSub ((mainRun (mainRun fs).1).1) = pubSub ((mainRun fs).1) := by
  obtain ⟨fs2, hres, hmain1⟩ := mainRun_succ_decomp fs c h
  have hcs : contentSub (clearPublicContent ((mainRun fs).1)) =
      contentSub (clearPublicContent fs) := by
    rw [contentSub_clear, contentSub_clear, mainRun_preserves_contentSub]
  have hps : pubSub (clearPublicContent ((mainRun fs).1)) =
      pubSub (clearPublicContent fs) := by
    rw [pubSub_clear, pubSub_clear]
  have hscan : getContentFiles (clearPublicContent ((mainRun fs).1)) =
      getContentFiles (clearPublicContent fs) :=
    scan_eq_of_contentSub hcs false
  have hsim := procAux_sim (getContentFiles (clearPublicContent fs))
    (clearPublicContent ((mainRun fs).1)) (clearPublicContent fs) [] hcs hps
  have h2 : (processFilesAux (clearPublicContent ((mainRun fs).1)) []
      (getContentFiles (clearPublicContent ((mainRun fs).1)))).2 = some c := by
    rw [hscan, hsim.1, hres]
  have hrun2 : (mainRun ((mainRun fs).1)).2 = some c := by
    rw [mainRun_snd, h2]
  obtain ⟨fs2', hres', hmain2⟩ := mainRun_succ_decomp ((mainRun fs).1) c hrun2
  refine ⟨hrun2, ?_, ?_⟩
  · rw [hmain2, hmain1, lookup_writeCatalog, lookup_writeCatalog]
  · rw [hmain2, hmain1, pubSub_writeCatalog, pubSub_writeCatalog]
    have h3 := hsim.2.2
    rw [hres] at h3
    rw [hscan] at hres'
    rw [hres'] at h3
    exact h3

set_option maxRecDepth 100000 in
/-- C2 witness: rerunning on the spec scenario reproduces the same
catalog, artifact bytes, and published files. -/
theorem C2_witness :
    (mainRun (mainRun scenarioFS).1).2 =
      some [(["docs", "a.txt"], "/content/docs/a.5d41402abc4b2a76.txt"),
            (["docs", "b.txt"], "/content/docs/b.7d793037a0760186.txt")] ∧
    ((mainRun (mainRun scenarioFS).1).1).lookupFile CATALOG_FILE =
      ((mainRun scenarioFS).1).lookupFile CATALOG_FILE ∧
    pubSub ((mainRun (mainRun scenarioFS).1).1) =
      pubSub ((mainRun scenarioFS).1) :=
  C2_pipeline_idempotent scenarioFS
    [(["docs", "a.txt"], "/content/docs/a.5d41402abc4b2a76.txt"),
     (["docs", "b.txt"], "/content/docs/b.7d793037a0760186.txt")]
    (by decide)

/-! ## Claim C3 -/

theorem scanStep_some (rootDir : List String) (dot : Bool) (p rel : List String)
    (h : scanStep rootDir dot p = some rel) :
    rootDir.isPrefixOf p = true ∧ p ≠ rootDir ∧ p = rootDir ++ rel := by
  unfold scanStep at h
  split at h
  · rename_i hc
    simp only [] at h
    split at h
    · cases h
    · injection h with h
      rcases List.isPrefixOf_iff_prefix.mp hc.1 with ⟨t, ht⟩
      refine ⟨hc.1, hc.2, ?_⟩
      rw [← h, ← ht, List.drop_left]
  · cases h

theorem WF_clear (fs : FS) (h : fs.WF) : (clearPublicContent fs).WF := by
  unfold FS.WF at h ⊢
  apply List.Nodup.sublist _ h
  exact List.Sublist.map Prod.fst (List.filter_sublist fs.files)

theorem scan_nodup (fs : FS) (h : fs.WF) (dot : Bool) :
    (scanRecursive fs CONTENT_DIR dot).Nodup := by
  unfold scanRecursive
  rw [show (fs.files.filterMap fun e => scanStep CONTENT_DIR dot e.1) =
      ((fs.files.map Prod.fst).filterMap (scanStep CONTENT_DIR dot)) from
    (List.filterMap_map Prod.fst (scanStep CONTENT_DIR dot) fs.files).symm]
  apply List.Nodup.filterMap _ h
  intro a a' b hb hb'
  rw [Option.mem_def] at hb hb'
  have ha := (scanStep_some _ _ _ _ hb).2.2
  have ha' := (scanStep_some _ _ _ _ hb').2.2
  rw [ha, ha']

theorem procAux_keys (R : List (List String)) (fs : FS) (cat : Catalog)
    (c : Catalog) (hnd : ((cat.map Prod.fst) ++ R).Nodup)
    (h : (processFilesAux fs cat R).2 = some c) :
    c.map Prod.fst = cat.map Prod.fst ++ R := by
  induction R generalizing fs cat with
  | nil =>
    simp only [processFilesAux] at h
    injection h with h
    rw [← h, List.append_nil]
  | cons rel rest ih =>
    cases hr : fs.readFile (CONTENT_DIR ++ rel) with
    | none =>
      simp only [processFilesAux, hr] at h
      cases h
    | some buffer =>
      simp only [processFilesAux, hr] at h
      have hrel_not : rel ∉ cat.map Prod.fst := by
        intro hmem
        rcases List.nodup_append.mp hnd with ⟨_, _, hdisj⟩
        exact hdisj hmem (List.Mem.head _)
      rw [upsert_of_not_mem _ _ _ hrel_not] at h
      have hnd' : (((cat ++ [(rel, urlOf rel (fingerprint buffer))]).map
          Prod.fst) ++ rest).Nodup := by
        simpa [List.map_append, List.append_assoc] using hnd
      have hres := ih _ _ hnd' h
      rw [hres]
      simp [List.map_append, List.append_assoc]

/-- C3: on a well-formed snapshot, a successful run's catalog has
exactly the scanner's relative paths as keys, each exactly once, in
scan order, and no other keys. -/
theorem C3_catalog_keys_are_scan (fs : FS) (hwf : fs.WF) (c : Catalog)
    (h : (mainRun fs).2 = some c) :
    c.map Prod.fst = getContentFiles (clearPublicContent fs) ∧
    (c.map Prod.fst).Nodup := by
  obtain ⟨fs2, hres, _⟩ := mainRun_succ_decomp fs c h
  have hnd : (getContentFiles (clearPublicContent fs)).Nodup :=
    scan_nodup _ (WF_clear fs hwf) false
  have h2 : (processFilesAux (clearPublicContent fs) []
      (getContentFiles (clearPublicContent fs))).2 = some c := by
    rw [hres]
  have hk := procAux_keys _ _ [] c (by simpa using hnd) h2
  simp only [List.map_nil, List.nil_append] at hk
  refine ⟨hk, ?_⟩
  rw [hk]
  exact hnd

set_option maxRecDepth 100000 in
/-- C3 witness: the spec scenario's catalog keys are exactly the two
scanned paths, once each. -/
theorem C3_witness :
    ([((["docs", "a.txt"] : List String),
        "/content/docs/a.5d41402abc4b2a76.txt"),
      (["docs", "b.txt"], "/content/docs/b.7d793037a0760186.txt")].map
        Prod.fst = getContentFiles (clearPublicContent scenarioFS)) ∧
    ([((["docs", "a.txt"] : List String),
        "/content/docs/a.5d41402abc4b2a76.txt"),
      (["docs", "b.txt"], "/content/docs/b.7d793037a0760186.txt")].map
        Prod.fst).Nodup :=
  C3_catalog_keys_are_scan scenarioFS (by unfold FS.WF; decide)
    [(["docs", "a.txt"], "/content/docs/a.5d41402abc4b2a76.txt"),
     (["docs", "b.txt"], "/content/docs/b.7d793037a0760186.txt")]
    (by decide)

/-! ## Claim C6 -/

theorem mem_upsert {α β : Type} [DecidableEq α] (l : List (α × β)) (k : α)
    (v : β) (kv : α × β) (h : kv ∈ upsert l k v) : kv ∈ l ∨ kv = (k, v) := by
  unfold upsert at h
  split at h
  · rcases List.mem_map.mp h with ⟨e, he, hkv⟩
    by_cases hek : e.1 = k
    · rw [if_pos hek] at hkv
      exact Or.inr hkv.symm
    · rw [if_neg hek] at hkv
      exact Or.inl (hkv ▸ he)
  · rcases List.mem_append.mp h with h1 | h1
    · exact Or.inl h1
    · exact Or.inr (List.mem_singleton.mp h1)

theorem procAux_values (R : List (List String)) (fs : FS) (cat : Catalog)
    (c : Catalog)
    (hacc : ∀ kv ∈ cat, ∃ b, fs.readFile (CONTENT_DIR ++ kv.1) = some b ∧
      kv.2 = urlOf kv.1 (fingerprint b))
    (h : (processFilesAux fs cat R).2 = some c) :
    ∀ kv ∈ c, ∃ b, fs.readFile (CONTENT_DIR ++ kv.1) = some b ∧
      kv.2 = urlOf kv.1 (fingerprint b) := by
  induction R generalizing fs cat with
  | nil =>
    simp only [processFilesAux] at h
    injection h with h
    rw [← h]
    exact hacc
  | cons rel rest ih =>
    cases hr : fs.readFile (CONTENT_DIR ++ rel) with
    | none =>
      simp only [processFilesAux, hr] at h
      cases h
    | some buffer =>
      simp only [processFilesAux, hr] at h
      have hne : ∀ x : List String,
          CONTENT_DIR ++ x ≠ destOf rel (fingerprint buffer) := by
        intro x
        rw [destOf_eq]
        exact ne_of_outside_pub (pub_not_prefix_content x) _
      have hstep : ∀ kv ∈ upsert cat rel (urlOf rel (fingerprint buffer)),
          ∃ b, (fs.setFile (destOf rel (fingerprint buffer))
              (FileData.readable buffer)).readFile (CONTENT_DIR ++ kv.1) =
            some b ∧ kv.2 = urlOf kv.1 (fingerprint b) := by
        intro kv hkv
        rcases mem_upsert _ _ _ _ hkv with hold | hnew
        · rcases hacc kv hold with ⟨b, hb, hu⟩
          refine ⟨b, ?_, hu⟩
          rw [readFile_setFile_ne _ _ _ _ (hne kv.1)]
          exact hb
        · refine ⟨buffer, ?_, ?_⟩
          · rw [hnew]
            rw [readFile_setFile_ne _ _ _ _ (hne rel)]
            exact hr
          · rw [hnew]
      have hres2 := ih (fs.setFile (destOf rel (fingerprint buffer))
        (FileData.readable buffer))
        (upsert cat rel (urlOf rel (fingerprint buffer))) hstep h
      intro kv hkv
      rcases hres2 kv hkv with ⟨b, hb, hu⟩
      refine ⟨b, ?_, hu⟩
      rw [readFile_setFile_ne _ _ _ _ (hne kv.1)] at hb
      exact hb

/-- C6: every catalog entry of a successful run maps an original
relative path to the root-relative forward-slash URL
`/content/<original dir>/<basename>.<fingerprint><ext>`, where the
fingerprint is that of the entry's own file bytes. -/
theorem C6_catalog_maps_to_urls (fs : FS) (c : Catalog)
    (h : (mainRun fs).2 = some c) :
    ∀ kv ∈ c, ∃ b,
      (clearPublicContent fs).readFile (CONTENT_DIR ++ kv.1) = some b ∧
      kv.2 = "/" ++ String.intercalate "/"
        ("content" :: (kv.1.dropLast ++
          [hashedName (kv.1.getLastD "") (fingerprint b)])) := by
  obtain ⟨fs2, hres, _⟩ := mainRun_succ_decomp fs c h
  have h2 : (processFilesAux (clearPublicContent fs) []
      (getContentFiles (clearPublicContent fs))).2 = some c := by
    rw [hres]
  have hv := procAux_values _ _ [] c (by intro kv hkv; cases hkv) h2
  intro kv hkv
  rcases hv kv hkv with ⟨b, hb, hu⟩
  exact ⟨b, hb, hu⟩

set_option maxRecDepth 100000 in
/-- C6 witness: in the spec scenario the entry for `docs/a.txt` has
exactly the URL form with the fingerprint of the bytes of `"hello"`. -/
theorem C6_witness :
    ∃ b, (clearPublicContent scenarioFS).readFile
        (CONTENT_DIR ++ ["docs", "a.txt"]) = some b ∧
      "/content/docs/a.5d41402abc4b2a76.txt" = "/" ++ String.intercalate "/"
        ("content" :: ((["docs", "a.txt"] : List String).dropLast ++
          [hashedName ((["docs", "a.txt"] : List String).getLastD "")
            (fingerprint b)])) :=
  C6_catalog_maps_to_urls scenarioFS
    [(["docs", "a.txt"], "/content/docs/a.5d41402abc4b2a76.txt"),
     (["docs", "b.txt"], "/content/docs/b.7d793037a0760186.txt")]
    (by decide)
    (["docs", "a.txt"], "/content/docs/a.5d41402abc4b2a76.txt")
    (List.Mem.head _)

/-! ## Fingerprint shape: 16 characters, none of them a dot -/

theorem hexDigit_ne_dot (n : Nat) : hexDigit n ≠ '.' := by
  unfold hexDigit
  by_cases h : n < 16
  · interval_cases n <;> decide
  · rw [List.getD_eq_default]
    · decide
    · have hlen : "0123456789abcdef".data.length = 16 := by decide
      omega

theorem flatMap_byteHexChars_length (l : List Nat) :
    (l.flatMap byteHexChars).length = 2 * l.length := by
  induction l with
  | nil => rfl
  | cons a t ih =>
    simp only [List.flatMap_cons, List.length_append, ih, byteHexChars]
    simp
    omega

theorem md5Bytes_length (b : List Nat) : (md5Bytes b).length = 16 := by
  unfold md5Bytes
  simp [le4]

theorem md5HexChars_length (b : List Nat) : (md5HexChars b).length = 32 := by
  unfold md5HexChars
  rw [flatMap_byteHexChars_length, md5Bytes_length]

theorem fingerprint_length (b : List Nat) :
    (fingerprint b).data.length = NUM_HEX_CHARS := by
  show ((md5HexChars b).take NUM_HEX_CHARS).length = NUM_HEX_CHARS
  rw [List.length_take, md5HexChars_length]
  rfl

theorem fingerprint_no_dot (b : List Nat) : '.' ∉ (fingerprint b).data := by
  show '.' ∉ (md5HexChars b).take NUM_HEX_CHARS
  intro hmem
  have hm : '.' ∈ md5HexChars b := List.mem_of_mem_take hmem
  unfold md5HexChars at hm
  rcases List.mem_flatMap.mp hm with ⟨x, hx, hdot⟩
  simp only [byteHexChars, List.mem_cons, List.mem_singleton,
    List.not_mem_nil] at hdot
  rcases hdot with h1 | h1 | h1
  · exact hexDigit_ne_dot _ h1.symm
  · exact hexDigit_ne_dot _ h1.symm
  · exact h1

/-! ## Last-dot-split invariants -/

theorem lds_none {cs : List Char} (h : lastDotSplit cs = none) : '.' ∉ cs := by
  induction cs with
  | nil => simp
  | cons c rest ih =>
    cases hr : lastDotSplit rest with
    | some pr => simp [lastDotSplit, hr] at h
    | none =>
      simp only [lastDotSplit, hr] at h
      by_cases hc : c = '.'
      · rw [if_pos hc] at h
        cases h
      · intro hmem
        rcases List.mem_cons.mp hmem with h1 | h1
        · exact hc h1.symm
        · exact ih hr h1

theorem lds_some {cs n e : List Char} (h : lastDotSplit cs = some (n, e)) :
    cs = n ++ '.' :: e ∧ '.' ∉ e := by
  induction cs generalizing n e with
  | nil => cases h
  | cons c rest ih =>
    cases hr : lastDotSplit rest with
    | some pr =>
      obtain ⟨n', e'⟩ := pr
      simp only [lastDotSplit, hr] at h
      injection h with h
      rw [Prod.mk.injEq] at h
      obtain ⟨h1, h2⟩ := h
      rcases ih hr with ⟨hcs, hne⟩
      subst h1
      subst h2
      constructor
      · rw [hcs]
        rfl
      · exact hne
    | none =>
      simp only [lastDotSplit, hr] at h
      by_cases hc : c = '.'
      · rw [if_pos hc] at h
        injection h with h
        rw [Prod.mk.injEq] at h
        obtain ⟨h1, h2⟩ := h
        subst h1
        subst h2
        subst hc
        exact ⟨rfl, lds_none hr⟩
      · rw [if_neg hc] at h
        cases h

/-! ## Extension and basename structure -/

theorem string_eq_of_data {a b : String} (h : a.data = b.data) : a = b :=
  congrArg String.mk h

theorem basename_of_extname_empty (s : String) (h : extname s = "") :
    basename s (extname s) = s := by
  unfold basename
  rw [if_neg]
  intro hc
  apply hc.1
  rw [h]

/-- Structure of a segment name with a nonempty extension: the name
splits as `n ++ '.' :: e` with `n` nonempty and `e` dot-free, the
extension is `'.' :: e`, and the basename is `n`. -/
theorem extname_shape (s : String) :
    extname s = "" ∨
    ∃ n e, s.data = n ++ '.' :: e ∧ '.' ∉ e ∧ n ≠ [] ∧
      (extname s).data = '.' :: e ∧ (basename s (extname s)).data = n := by
  by_cases hdd : s.data = ['.', '.']
  · left
    unfold extname
    rw [if_pos hdd]
  · cases hld : lastDotSplit s.data with
    | none =>
      left
      unfold extname
      rw [if_neg hdd]
      simp only [hld]
    | some pr =>
      obtain ⟨n, e⟩ := pr
      by_cases hn : n = []
      · left
        unfold extname
        rw [if_neg hdd]
        simp only [hld]
        rw [if_pos hn]
      · right
        rcases lds_some hld with ⟨hcs, hne⟩
        have hext : extname s = String.mk ('.' :: e) := by
          unfold extname
          rw [if_neg hdd]
          simp only [hld]
          rw [if_neg hn]
        have hcond : (String.mk ('.' :: e)).data ≠ [] ∧
            (String.mk ('.' :: e)).data ≠ s.data ∧
            (String.mk ('.' :: e)).data <:+ s.data := by
          refine ⟨by simp, ?_, ?_⟩
          · show ('.' :: e) ≠ s.data
            rw [hcs]
            intro hEq
            have hlen := congrArg List.length hEq
            simp only [List.length_cons, List.length_append] at hlen
            exact hn (List.eq_nil_of_length_eq_zero (by omega))
          · show ('.' :: e) <:+ s.data
            rw [hcs]
            exact ⟨n, rfl⟩
        refine ⟨n, e, hcs, hne, hn, by rw [hext], ?_⟩
        unfold basename
        rw [hext, if_pos hcond]
        show s.data.take (s.data.length - ('.' :: e).length) = n
        rw [hcs, show (n ++ '.' :: e).length - ('.' :: e).length = n.length by
          simp [List.length_append]]
        exact List.take_left n ('.' :: e)

theorem basename_extname_data (s : String) :
    (basename s (extname s)).data ++ (extname s).data = s.data := by
  rcases extname_shape s with h | ⟨n, e, hcs, _, _, hed, hbd⟩
  · rw [basename_of_extname_empty s h, h]
    simp
  · rw [hed, hbd, hcs]

theorem extname_ne_empty_of_interior_dot (s : String) (m t : List Char)
    (hm : m ≠ []) (ht : s.data = m ++ '.' :: t) (hlen : s.data.length ≠ 2) :
    extname s ≠ "" := by
  intro hce
  unfold extname at hce
  split at hce
  · rename_i h2
    apply hlen
    rw [h2]
    rfl
  · rename_i h2
    split at hce
    · rename_i hnone
      have hdot := lds_none hnone
      apply hdot
      rw [ht]
      exact List.mem_append_right m (List.Mem.head _)
    · rename_i pr n e hsome
      split at hce
      · rename_i hnil
        subst hnil
        rcases lds_some hsome with ⟨hcs, hne⟩
        rw [List.nil_append] at hcs
        cases m with
        | nil => exact hm rfl
        | cons c m' =>
          rw [ht] at hcs
          rw [List.cons_append] at hcs
          injection hcs with hc1 hc2
          apply hne
          rw [← hc2]
          exact List.mem_append_right m' (List.Mem.head _)
      · exact absurd (congrArg String.data hce) (by simp)

/-! ## Injectivity of the hashed file name -/

theorem hashedName_data (s h : String) :
    (hashedName s h).data = (basename s (extname s)).data ++ '.' ::
      (h.data ++ (extname s).data) := by
  unfold hashedName
  rw [String.data_append, String.data_append, String.data_append]
  rw [show (".").data = ['.'] from rfl]
  simp [List.append_assoc]

theorem split_ext (nd hd ed : List Char) :
    nd ++ '.' :: (hd ++ ed) = (nd ++ '.' :: hd) ++ ed := by
  simp

theorem suffix_of_cons_of_length_le {l m : List Char} {c : Char}
    (h : l <:+ c :: m) (hl : l.length ≤ m.length) : l <:+ m := by
  rcases h with ⟨u, hu⟩
  cases u with
  | nil =>
    rw [List.nil_append] at hu
    subst hu
    exfalso
    simp only [List.length_cons] at hl
    omega
  | cons c' u' =>
    rw [List.cons_append] at hu
    injection hu with h1 h2
    exact ⟨u', h2⟩

theorem suffix_comparable_lt {S A B : List Char}
    (hA : A <:+ S) (hB : B <:+ S) (hlt : A.length < B.length) : A <:+ B := by
  rcases List.suffix_or_suffix_of_suffix hA hB with h | h
  · exact h
  · have := h.length_le
    omega

theorem hashedName_inj_lt (s₁ s₂ h₁ h₂ : String)
    (l₁ : h₁.data.length = 16) (l₂ : h₂.data.length = 16)
    (d₁ : '.' ∉ h₁.data) (_d₂ : '.' ∉ h₂.data)
    (he : (hashedName s₁ h₁).data = (hashedName s₂ h₂).data)
    (hlt : (extname s₁).data.length < (extname s₂).data.length) : False := by
  rcases extname_shape s₂ with hE2 | ⟨n₂, e₂, hcs₂, hne₂, hn₂, hed₂, hbd₂⟩
  · rw [hE2] at hlt
    simp at hlt
  rcases extname_shape s₁ with hE1 | ⟨n₁, e₁, hcs₁, hne₁, hn₁, hed₁, hbd₁⟩
  · have hb1 : basename s₁ (extname s₁) = s₁ := basename_of_extname_empty s₁ hE1
    have hS1 : (hashedName s₁ h₁).data = s₁.data ++ '.' :: h₁.data := by
      rw [hashedName_data, hb1, hE1]
      simp
    have hS2 : (hashedName s₂ h₂).data = (n₂ ++ '.' :: h₂.data) ++ '.' :: e₂ := by
      rw [hashedName_data, hbd₂, hed₂, split_ext]
    have hA : ('.' :: h₁.data) <:+ (hashedName s₂ h₂).data := by
      rw [← he, hS1]
      exact ⟨s₁.data, rfl⟩
    have hB : ('.' :: e₂) <:+ (hashedName s₂ h₂).data := by
      rw [hS2]
      exact ⟨n₂ ++ '.' :: h₂.data, rfl⟩
    rcases Nat.lt_trichotomy (e₂.length + 1) (h₁.data.length + 1) with hc | hc | hc
    · have hcmp : ('.' :: e₂) <:+ ('.' :: h₁.data) :=
        suffix_comparable_lt hB hA (by simp only [List.length_cons]; omega)
      have hBin : ('.' :: e₂) <:+ h₁.data :=
        suffix_of_cons_of_length_le hcmp (by simp only [List.length_cons]; omega)
      exact d₁ (hBin.subset (List.Mem.head _))
    · have hAB : ('.' :: h₁.data) = ('.' :: e₂) := by
        rcases List.suffix_or_suffix_of_suffix hA hB with h | h
        · exact h.eq_of_length (by simp only [List.length_cons]; omega)
        · exact (h.eq_of_length (by simp only [List.length_cons]; omega)).symm
      have heq : s₁.data ++ '.' :: h₁.data =
          (n₂ ++ '.' :: h₂.data) ++ '.' :: e₂ := by
        rw [← hS1, he, hS2]
      have hinj := List.append_inj' heq (congrArg List.length hAB)
      have hlen2 : s₁.data.length ≠ 2 := by
        rw [hinj.1]
        have := List.length_pos.mpr hn₂
        simp only [List.length_append, List.length_cons]
        omega
      exact extname_ne_empty_of_interior_dot s₁ n₂ h₂.data hn₂ hinj.1 hlen2 hE1
    · have hcmp : ('.' :: h₁.data) <:+ ('.' :: e₂) :=
        suffix_comparable_lt hA hB (by simp only [List.length_cons]; omega)
      have hAin : ('.' :: h₁.data) <:+ e₂ :=
        suffix_of_cons_of_length_le hcmp (by simp only [List.length_cons]; omega)
      exact hne₂ (hAin.subset (List.Mem.head _))
  · have hsuf1 : (extname s₁).data <:+ (hashedName s₂ h₂).data := by
      rw [← he, hashedName_data]
      exact ⟨(basename s₁ (extname s₁)).data ++ '.' :: h₁.data,
        (split_ext _ _ _).symm⟩
    have hsuf2 : (extname s₂).data <:+ (hashedName s₂ h₂).data := by
      rw [hashedName_data]
      exact ⟨(basename s₂ (extname s₂)).data ++ '.' :: h₂.data,
        (split_ext _ _ _).symm⟩
    have hsub : (extname s₁).data <:+ (extname s₂).data :=
      suffix_comparable_lt hsuf1 hsuf2 hlt
    rw [hed₁, hed₂] at hsub
    rw [hed₁, hed₂] at hlt
    have hsub2 : ('.' :: e₁) <:+ e₂ := by
      apply suffix_of_cons_of_length_le hsub
      simp only [List.length_cons] at hlt
      simp only [List.length_cons]
      omega
    exact hne₂ (hsub2.subset (List.Mem.head _))

theorem hashedName_inj (s₁ s₂ h₁ h₂ : String)
    (l₁ : h₁.data.length = 16) (l₂ : h₂.data.length = 16)
    (d₁ : '.' ∉ h₁.data) (d₂ : '.' ∉ h₂.data)
    (he : hashedName s₁ h₁ = hashedName s₂ h₂) : s₁ = s₂ := by
  have hed : (hashedName s₁ h₁).data = (hashedName s₂ h₂).data := by rw [he]
  rcases Nat.lt_trichotomy (extname s₁).data.length
    (extname s₂).data.length with hc | hc | hc
  · exact (hashedName_inj_lt s₁ s₂ h₁ h₂ l₁ l₂ d₁ d₂ hed hc).elim
  · have h1 := hashedName_data s₁ h₁
    have h2 := hashedName_data s₂ h₂
    have heq : ((basename s₁ (extname s₁)).data ++ '.' :: h₁.data) ++
        (extname s₁).data =
        ((basename s₂ (extname s₂)).data ++ '.' :: h₂.data) ++
        (extname s₂).data := by
      rw [← split_ext, ← split_ext, ← h1, ← h2, hed]
    have hinj := List.append_inj' heq hc
    have hinj2 := List.append_inj' hinj.1
      (by simp only [List.length_cons, l₁, l₂])
    apply string_eq_of_data
    rw [← basename_extname_data s₁, ← basename_extname_data s₂,
      hinj2.1, hinj.2]
  · exact (hashedName_inj_lt s₂ s₁ h₂ h₁ l₂ l₁ d₂ d₁ hed.symm hc).elim

/-! ## Injectivity of the published destination path -/

theorem eq_of_dropLast_getLastD {l₁ l₂ : List String} (h₁ : l₁ ≠ [])
    (h₂ : l₂ ≠ []) (hd : l₁.dropLast = l₂.dropLast)
    (hl : l₁.getLastD "" = l₂.getLastD "") : l₁ = l₂ := by
  have g₁ : l₁.getLastD "" = l₁.getLast h₁ := by
    rw [List.getLastD_eq_getLast?, List.getLast?_eq_getLast l₁ h₁]
    rfl
  have g₂ : l₂.getLastD "" = l₂.getLast h₂ := by
    rw [List.getLastD_eq_getLast?, List.getLast?_eq_getLast l₂ h₂]
    rfl
  calc l₁ = l₁.dropLast ++ [l₁.getLast h₁] :=
        (List.dropLast_concat_getLast h₁).symm
    _ = l₂.dropLast ++ [l₂.getLast h₂] := by rw [hd, ← g₁, hl, g₂]
    _ = l₂ := List.dropLast_concat_getLast h₂

theorem destOf_inj {rel₁ rel₂ : List String} {b₁ b₂ : List Nat}
    (h₁ : rel₁ ≠ []) (h₂ : rel₂ ≠ [])
    (he : destOf rel₁ (fingerprint b₁) = destOf rel₂ (fingerprint b₂)) :
    rel₁ = rel₂ := by
  rw [destOf_eq, destOf_eq] at he
  have he2 : outputRelOf rel₁ (fingerprint b₁) =
      outputRelOf rel₂ (fingerprint b₂) := List.append_cancel_left he
  unfold outputRelOf at he2
  have hsplit := List.append_inj' he2 (by simp)
  have hh : hashedName (rel₁.getLastD "") (fingerprint b₁) =
      hashedName (rel₂.getLastD "") (fingerprint b₂) := by
    simpa using hsplit.2
  have hlast := hashedName_inj _ _ _ _ (fingerprint_length b₁)
    (fingerprint_length b₂) (fingerprint_no_dot b₁) (fingerprint_no_dot b₂) hh
  exact eq_of_dropLast_getLastD h₁ h₂ hsplit.1 hlast

theorem scan_rel_ne_nil {fs : FS} {dot : Bool} {rel : List String}
    (h : rel ∈ scanRecursive fs CONTENT_DIR dot) : rel ≠ [] := by
  unfold scanRecursive at h
  rcases List.mem_filterMap.mp h with ⟨e, he, hstep⟩
  have hd := scanStep_some _ _ _ _ hstep
  intro hnil
  rw [hnil, List.append_nil] at hd
  exact hd.2.1 hd.2.2

/-! ## Published files of a successful run -/

theorem procAux_pubSub (R : List (List String)) (fs : FS) (cat : Catalog)
    (c : Catalog) (h : (processFilesAux fs cat R).2 = some c)
    (hnd : R.Nodup) (hnil : ∀ rel ∈ R, rel ≠ [])
    (hdisj : ∀ rel ∈ R, ∀ b, fs.readFile (CONTENT_DIR ++ rel) = some b →
      destOf rel (fingerprint b) ∉ (pubSub fs).map Prod.fst) :
    pubSub ((processFilesAux fs cat R).1) = pubSub fs ++
      R.filterMap (fun rel => (fs.readFile (CONTENT_DIR ++ rel)).map
        (fun b => (destOf rel (fingerprint b), FileData.readable b))) := by
  induction R generalizing fs cat with
  | nil => simp [processFilesAux]
  | cons rel rest ih =>
    cases hr : fs.readFile (CONTENT_DIR ++ rel) with
    | none =>
      simp only [processFilesAux, hr] at h
      cases h
    | some buffer =>
      simp only [processFilesAux, hr] at h
      have hreads : ∀ x : List String,
          (fs.setFile (destOf rel (fingerprint buffer))
            (FileData.readable buffer)).readFile (CONTENT_DIR ++ x) =
          fs.readFile (CONTENT_DIR ++ x) := by
        intro x
        apply readFile_setFile_ne
        rw [destOf_eq]
        exact ne_of_outside_pub (pub_not_prefix_content x) _
      have hps : pubSub (fs.setFile (destOf rel (fingerprint buffer))
          (FileData.readable buffer)) = pubSub fs ++
          [(destOf rel (fingerprint buffer), FileData.readable buffer)] := by
        rw [destOf_eq, pubSub_setFile_pub]
        rw [← destOf_eq]
        exact upsert_of_not_mem _ _ _
          (hdisj rel (List.Mem.head _) buffer hr)
      have hdisj' : ∀ r ∈ rest, ∀ b,
          (fs.setFile (destOf rel (fingerprint buffer))
            (FileData.readable buffer)).readFile (CONTENT_DIR ++ r) = some b →
          destOf r (fingerprint b) ∉
            (pubSub (fs.setFile (destOf rel (fingerprint buffer))
              (FileData.readable buffer))).map Prod.fst := by
        intro r hrm b hb
        rw [hreads r] at hb
        rw [hps, List.map_append, List.mem_append]
        rintro (hin | hin)
        · exact hdisj r (List.mem_cons_of_mem rel hrm) b hb hin
        · simp only [List.map_cons, List.map_nil, List.mem_singleton] at hin
          have := destOf_inj (hnil r (List.mem_cons_of_mem rel hrm))
            (hnil rel (List.Mem.head _)) hin
          rw [this] at hrm
          exact (List.nodup_cons.mp hnd).1 hrm
      have hres := ih (fs.setFile (destOf rel (fingerprint buffer))
        (FileData.readable buffer))
        (upsert cat rel (urlOf rel (fingerprint buffer))) h
        (List.nodup_cons.mp hnd).2
        (fun r hrm => hnil r (List.mem_cons_of_mem rel hrm)) hdisj'
      simp only [processFilesAux, hr]
      rw [hres, hps]
      rw [List.filterMap_congr (fun x hx => by rw [hreads x])]
      simp only [List.filterMap_cons, hr, Option.map_some']
      rw [List.append_assoc]
      rfl

/-! ## Directory existence helpers -/

theorem isPrefixOf_refl (p : List String) : p.isPrefixOf p = true := by
  simp

theorem dirExists_of_mem_dirs (fs : FS) (d : List String) (h : d ∈ fs.dirs) :
    fs.dirExists d = true := by
  unfold FS.dirExists
  apply Bool.or_eq_true_iff.mpr
  left
  exact List.any_eq_true.mpr ⟨d, h, isPrefixOf_refl d⟩

theorem dirExists_of_lookup (fs : FS) (p d : List String)
    (hl : (fs.lookupFile p).isSome) (hpre : d.isPrefixOf p = true)
    (hne : d ≠ p) : fs.dirExists d = true := by
  unfold FS.dirExists
  apply Bool.or_eq_true_iff.mpr
  right
  unfold FS.lookupFile lookupA at hl
  cases hf : fs.files.find? (fun e => decide (e.1 = p)) with
  | none =>
    rw [hf] at hl
    cases hl
  | some e =>
    have hmem := List.mem_of_find?_eq_some hf
    have hkey : e.1 = p := by
      have := List.find?_some hf
      simpa using this
    apply List.any_eq_true.mpr
    refine ⟨e, hmem, ?_⟩
    rw [hkey, hpre]
    simp [bne_iff_ne]
    exact hne

theorem mem_dirs_ensureDir_self (fs : FS) (p : List String) :
    p ∈ (fs.ensureDir p).dirs := by
  unfold FS.ensureDir
  by_cases hp : p ∈ fs.dirs
  · rw [if_pos hp]
    exact hp
  · rw [if_neg hp]
    exact List.mem_append_right _ (List.Mem.head _)

theorem mem_dirs_ensureDir_of_mem (fs : FS) (p d : List String)
    (h : d ∈ fs.dirs) : d ∈ (fs.ensureDir p).dirs := by
  unfold FS.ensureDir
  by_cases hp : p ∈ fs.dirs
  · rw [if_pos hp]
    exact h
  · rw [if_neg hp]
    exact List.mem_append_left _ h

theorem mainRun_pub_dir (fs : FS) :
    PUBLIC_CONTENT_DIR ∈ ((mainRun fs).1).dirs := by
  have hclear : PUBLIC_CONTENT_DIR ∈ (clearPublicContent fs).dirs :=
    mem_dirs_ensureDir_self _ _
  cases hres : processFilesAux (clearPublicContent fs) []
      (getContentFiles (clearPublicContent fs)) with
  | mk fs2 oc =>
    have hd2 : fs2.dirs = (clearPublicContent fs).dirs := by
      have h1 := procAux_dirs
        (getContentFiles (clearPublicContent fs)) (clearPublicContent fs) []
      rw [hres] at h1
      exact h1
    cases oc with
    | none =>
      simp only [mainRun, processFiles, hres]
      rw [show ((fs2, (none : Option Catalog)).1).dirs = fs2.dirs from rfl, hd2]
      exact hclear
    | some c =>
      simp only [mainRun, processFiles, hres]
      show PUBLIC_CONTENT_DIR ∈ (writeCatalog c fs2).dirs
      unfold writeCatalog FS.setFile
      show PUBLIC_CONTENT_DIR ∈ (fs2.ensureDir CATALOG_FILE.dropLast).dirs
      apply mem_dirs_ensureDir_of_mem
      rw [hd2]
      exact hclear

theorem clear_readFile (fs : FS) (rel : List String) :
    (clearPublicContent fs).readFile (CONTENT_DIR ++ rel) =
      fs.readFile (CONTENT_DIR ++ rel) := by
  unfold FS.readFile
  rw [clear_lookup_frame _ _ (pub_not_prefix_content rel)]

/-! ## Claim C5 -/

/-- C5: after a successful run on a well-formed snapshot, the output
root contains exactly the published files of the current content
snapshot — one destination per scanned file, nothing else, and in
particular nothing surviving from any earlier state of the output root;
the output root directory itself exists (it was recreated). -/
theorem C5_output_root_exactly_published (fs : FS) (hwf : fs.WF)
    (c : Catalog) (h : (mainRun fs).2 = some c) :
    (pubSub ((mainRun fs).1)).map Prod.fst = runDests fs ∧
    ((mainRun fs).1).dirExists PUBLIC_CONTENT_DIR = true := by
  obtain ⟨fs2, hres, hmain⟩ := mainRun_succ_decomp fs c h
  constructor
  · have h2 : (processFilesAux (clearPublicContent fs) []
        (getContentFiles (clearPublicContent fs))).2 = some c := by
      rw [hres]
    have hp := procAux_pubSub (getContentFiles (clearPublicContent fs))
      (clearPublicContent fs) [] c h2
      (scan_nodup _ (WF_clear fs hwf) false)
      (fun rel hr => scan_rel_ne_nil hr)
      (by
        intro rel hr b hb
        rw [pubSub_clear]
        simp)
    rw [hres] at hp
    have hp2 : pubSub fs2 = pubSub (clearPublicContent fs) ++
        (getContentFiles (clearPublicContent fs)).filterMap
          (fun rel => ((clearPublicContent fs).readFile
            (CONTENT_DIR ++ rel)).map
            (fun b => (destOf rel (fingerprint b),
              FileData.readable b))) := hp
    rw [hmain, pubSub_writeCatalog, hp2, pubSub_clear, List.nil_append]
    unfold runDests
    rw [List.map_filterMap]
    apply List.filterMap_congr
    intro x hx
    cases hread : (clearPublicContent fs).readFile (CONTENT_DIR ++ x) <;> simp
  · exact dirExists_of_mem_dirs _ _ (mainRun_pub_dir fs)

set_option maxRecDepth 100000 in
/-- C5 witness: in the spec scenario the output root holds exactly the
two hashed copies. -/
theorem C5_witness :
    (pubSub ((mainRun scenarioFS).1)).map Prod.fst = runDests scenarioFS ∧
    ((mainRun scenarioFS).1).dirExists PUBLIC_CONTENT_DIR = true :=
  C5_output_root_exactly_published scenarioFS (by unfold FS.WF; decide)
    [(["docs", "a.txt"], "/content/docs/a.5d41402abc4b2a76.txt"),
     (["docs", "b.txt"], "/content/docs/b.7d793037a0760186.txt")]
    (by decide)

/-! ## Claim C4 -/

theorem procAux_lookup_notdest (R : List (List String)) (fs : FS)
    (cat : Catalog) (q : List String)
    (hq : ∀ rel ∈ R, ∀ b, fs.readFile (CONTENT_DIR ++ rel) = some b →
      q ≠ destOf rel (fingerprint b)) :
    ((processFilesAux fs cat R).1).lookupFile q = fs.lookupFile q := by
  induction R generalizing fs cat with
  | nil => rfl
  | cons rel rest ih =>
    cases hr : fs.readFile (CONTENT_DIR ++ rel) with
    | none => simp only [processFilesAux, hr]
    | some buffer =>
      simp only [processFilesAux, hr]
      have hreads : ∀ x : List String,
          (fs.setFile (destOf rel (fingerprint buffer))
            (FileData.readable buffer)).readFile (CONTENT_DIR ++ x) =
          fs.readFile (CONTENT_DIR ++ x) := by
        intro x
        apply readFile_setFile_ne
        rw [destOf_eq]
        exact ne_of_outside_pub (pub_not_prefix_content x) _
      rw [ih _ _ ?htail]
      · exact lookupFile_setFile_ne fs _ q _
          (hq rel (List.Mem.head _) buffer hr)
      · intro r hrm b hb
        rw [hreads r] at hb
        exact hq r (List.mem_cons_of_mem rel hrm) b hb

theorem procAux_final_lookup (R : List (List String)) (fs : FS)
    (cat : Catalog) (c : Catalog)
    (h : (processFilesAux fs cat R).2 = some c) (hnd : R.Nodup)
    (hnil : ∀ rel ∈ R, rel ≠ []) (rel : List String) (hrel : rel ∈ R) :
    ∃ b, fs.readFile (CONTENT_DIR ++ rel) = some b ∧
      ((processFilesAux fs cat R).1).lookupFile
        (destOf rel (fingerprint b)) = some (FileData.readable b) := by
  induction R generalizing fs cat with
  | nil => cases hrel
  | cons r rest ih =>
    cases hr : fs.readFile (CONTENT_DIR ++ r) with
    | none =>
      simp only [processFilesAux, hr] at h
      cases h
    | some buffer =>
      simp only [processFilesAux, hr] at h
      have hreads : ∀ x : List String,
          (fs.setFile (destOf r (fingerprint buffer))
            (FileData.readable buffer)).readFile (CONTENT_DIR ++ x) =
          fs.readFile (CONTENT_DIR ++ x) := by
        intro x
        apply readFile_setFile_ne
        rw [destOf_eq]
        exact ne_of_outside_pub (pub_not_prefix_content x) _
      rcases List.mem_cons.mp hrel with heq | hmem
      · subst heq
        refine ⟨buffer, hr, ?_⟩
        simp only [processFilesAux, hr]
        rw [procAux_lookup_notdest rest _ _ _ ?hq]
        · exact lookupFile_setFile_self fs _ _
        · intro r' hrm b hb
          rw [hreads r'] at hb
          intro hEq
          have hre : rel = r' := destOf_inj (hnil rel (List.Mem.head _))
            (hnil r' (List.mem_cons_of_mem rel hrm)) hEq
          rw [hre] at hnd
          exact (List.nodup_cons.mp hnd).1 hrm
      · simp only [processFilesAux, hr]
        have hres := ih (fs.setFile (destOf r (fingerprint buffer))
          (FileData.readable buffer))
          (upsert cat r (urlOf r (fingerprint buffer))) h
          (List.nodup_cons.mp hnd).2
          (fun r' hm => hnil r' (List.mem_cons_of_mem r hm)) hmem
        rcases hres with ⟨b, hb, hl⟩
        rw [hreads rel] at hb
        exact ⟨b, hb, hl⟩

/-- C4: for every scanned file of a successful run on a well-formed
snapshot, the publisher leaves the file's bytes unchanged at the output
path `<output root>/<original dir>/<basename>.<fingerprint><ext>`, and
every (nonempty, proper) ancestor directory of that path exists
afterwards. -/
theorem C4_publisher_copies_to_hashed_path (fs : FS) (hwf : fs.WF)
    (c : Catalog) (h : (mainRun fs).2 = some c) (rel : List String)
    (hrel : rel ∈ getContentFiles (clearPublicContent fs)) :
    ∃ b, fs.readFile (CONTENT_DIR ++ rel) = some b ∧
      ((mainRun fs).1).lookupFile (PUBLIC_CONTENT_DIR ++
        (rel.dropLast ++ [hashedName (rel.getLastD "") (fingerprint b)])) =
        some (FileData.readable b) ∧
      ∀ d, d.isPrefixOf (PUBLIC_CONTENT_DIR ++
          (rel.dropLast ++ [hashedName (rel.getLastD "") (fingerprint b)]))
            = true →
        d ≠ PUBLIC_CONTENT_DIR ++
          (rel.dropLast ++ [hashedName (rel.getLastD "") (fingerprint b)]) →
        ((mainRun fs).1).dirExists d = true := by
  obtain ⟨fs2, hres, hmain⟩ := mainRun_succ_decomp fs c h
  have h2 : (processFilesAux (clearPublicContent fs) []
      (getContentFiles (clearPublicContent fs))).2 = some c := by
    rw [hres]
  have hfin := procAux_final_lookup (getContentFiles (clearPublicContent fs))
    (clearPublicContent fs) [] c h2 (scan_nodup _ (WF_clear fs hwf) false)
    (fun r hr => scan_rel_ne_nil hr) rel hrel
  rcases hfin with ⟨b, hb, hl⟩
  rw [hres] at hl
  have hl2 : fs2.lookupFile (destOf rel (fingerprint b)) =
      some (FileData.readable b) := hl
  have hb2 : fs.readFile (CONTENT_DIR ++ rel) = some b := by
    rw [← clear_readFile]
    exact hb
  have hfinal : ((mainRun fs).1).lookupFile (destOf rel (fingerprint b)) =
      some (FileData.readable b) := by
    rw [hmain]
    unfold writeCatalog
    rw [lookupFile_setFile_ne _ _ _ _ ?hne, lookupFile_ensureDir]
    · exact hl2
    · rw [destOf_eq]
      exact fun hEq => catalog_ne_pub_append _ hEq.symm
  refine ⟨b, hb2, hfinal, ?_⟩
  intro d hdp hdne
  exact dirExists_of_lookup _ (destOf rel (fingerprint b)) d
    (by rw [hfinal]; rfl) hdp hdne

set_option maxRecDepth 100000 in
/-- C4 witness: in the spec scenario, `content/docs/a.txt` (bytes of
`"hello"`) is published unchanged at its hashed destination, with the
intermediate directories present. -/
theorem C4_witness :
    ∃ b, scenarioFS.readFile (CONTENT_DIR ++ ["docs", "a.txt"]) = some b ∧
      ((mainRun scenarioFS).1).lookupFile (PUBLIC_CONTENT_DIR ++
        ((["docs", "a.txt"] : List String).dropLast ++
          [hashedName ((["docs", "a.txt"] : List String).getLastD "")
            (fingerprint b)])) = some (FileData.readable b) ∧
      ∀ d, d.isPrefixOf (PUBLIC_CONTENT_DIR ++
          ((["docs", "a.txt"] : List String).dropLast ++
            [hashedName ((["docs", "a.txt"] : List String).getLastD "")
              (fingerprint b)])) = true →
        d ≠ PUBLIC_CONTENT_DIR ++
          ((["docs", "a.txt"] : List String).dropLast ++
            [hashedName ((["docs", "a.txt"] : List String).getLastD "")
              (fingerprint b)]) →
        ((mainRun scenarioFS).1).dirExists d = true :=
  C4_publisher_copies_to_hashed_path scenarioFS (by unfold FS.WF; decide)
    [(["docs", "a.txt"], "/content/docs/a.5d41402abc4b2a76.txt"),
     (["docs", "b.txt"], "/content/docs/b.7d793037a0760186.txt")]
    (by decide) ["docs", "a.txt"]
    (by
      have hs : getContentFiles (clearPublicContent scenarioFS) =
          [["docs", "a.txt"], ["docs", "b.txt"]] := by decide
      rw [hs]
      exact List.Mem.head _)
